import Mathlib

/-!
Verification of the firetrianglebase retention-and-merge engine.

The repository consists of iterative rewrites of one Firebase batch job
(`processReports.js` and the unnamed variants).  The primary embedding below
follows the most developed iteration (the first document of
`src/unnamed/part_000`, which is identical to the final document of
`src/processReports.js` except for the duplicate check guarding the Live
write of a synthesized record; the two duplicate checks are both embedded
and selected by a flag).  An older iteration of the merged-records
deduplication pass and of the description synthesis (the first document of
`src/processReports.js`) is embedded separately where a claim refers to it.

Modelling conventions:
* JS record fields are optional; a missing field is `none`.  The fields the
  program reads arithmetically or compares with `===` are modelled as
  `Option ℚ` / `Option String`; `timestamp` is `Option JVal` so that a
  non-numeric timestamp (the `typeof rpt.timestamp !== "number"` branch)
  is representable.  String-typed coordinates and implicit JS numeric
  coercion of strings are outside the model.
* JS truthiness: `0`, `""`, `undefined` are falsy; that is `truthyQ`,
  `truthyStr`, `truthyTs` below.
* `haversine` is floating-point trigonometry; it is modelled as an abstract
  distance oracle `Dist` passed to the run, exactly at its single call site
  (`dist <= MERGE_RADIUS`, with the anchor record first).  A call on a
  record with a missing coordinate yields `NaN` in JS, and every comparison
  with `NaN` is false; the embedding therefore requires both coordinates to
  be present before consulting the oracle.
* The `updates` accumulator is a list of (path, value-or-tombstone) writes
  in program order; JS object assignment semantics means the last write to
  a path wins, which is `lastVal` below.  `db.ref().update(updates)` is
  `applyStore`.
* `liveRef.push().key` generates a fresh id without touching the store
  (per the store contract in the design document); it is modelled as a key
  supply `ℕ → String` indexed by the merge ordinal.
-/

/- Batteries marks the `Rat` arithmetic operations `@[irreducible]`, which
blocks `decide`/`rfl` evaluation of concrete rational arithmetic during
elaboration.  Restore reducibility; kernel-side checking is unaffected. -/
set_option allowUnsafeReducibility true
attribute [semireducible] Rat.sub Rat.add Rat.mul Rat.inv Rat.div

namespace FireTriangle

/-- A JS primitive value as stored in a record field (numbers and strings). -/
inductive JVal where
  | num (q : ℚ)
  | str (s : String)
deriving DecidableEq

/-- A report record: an untyped key-value bag with the seven fields the
engine reads.  A missing field is `none`. -/
structure Report where
  type : Option String := none
  latitude : Option ℚ := none
  longitude : Option ℚ := none
  timestamp : Option JVal := none
  description : Option String := none
  icon : Option String := none
  usersubmitting : Option String := none
deriving DecidableEq

/-- An absolute store path that the job writes to. -/
inductive Path where
  | live (id : String)
  | trash (id : String)
  | merged (id : String)
  | userLast (uid : String)
deriving DecidableEq

/-- One pending write: a path together with a value or a deletion tombstone
(`none`).  The `userLast` paths only ever carry `none` (field clear). -/
abbrev Write := Path × Option Report

/-- The four snapshots.  Collections are association lists in iteration
order (JS object insertion order); `users` keeps only the one field the
job reads, `lastReportTimestamp`. -/
structure Store where
  live : List (String × Report) := []
  trash : List (String × Report) := []
  merged : List (String × Report) := []
  users : List (String × Option JVal) := []
deriving DecidableEq

/-- `MAX_AGE = 48 * 60 * 60` seconds. -/
def MAX_AGE : ℚ := 48 * 60 * 60

/-- `MERGE_RADIUS = 0.1` km. -/
def MERGE_RADIUS : ℚ := 1 / 10

/-- Association-list lookup (`liveData[id]`). -/
def kget {α β : Type} [DecidableEq α] (l : List (α × β)) (k : α) : Option β :=
  (l.find? (fun p => decide (p.1 = k))).map (fun p => p.2)

/-- Association-list update in place (JS `map.set` / object assignment:
an existing key keeps its position, a new key is appended). -/
def kset {α β : Type} [DecidableEq α] : List (α × β) → α → β → List (α × β)
  | [], k, v => [(k, v)]
  | (k0, v0) :: rest, k, v =>
      if k0 = k then (k, v) :: rest else (k0, v0) :: kset rest k v

/-- Association-list deletion (applying a tombstone removes the key). -/
def kdel {α β : Type} [DecidableEq α] (l : List (α × β)) (k : α) : List (α × β) :=
  l.filter (fun p => decide (p.1 ≠ k))

/-- JS truthiness of an optional string field (`!rpt.icon` etc.). -/
def truthy : Option String → Bool
  | none => false
  | some s => s != ""

/-- JS truthiness of an optional numeric field (`!rpt.latitude` etc.). -/
def truthyQ : Option ℚ → Bool
  | none => false
  | some q => q != 0

/-- The numeric view of a timestamp field: `some q` exactly when
`typeof rpt.timestamp === "number"` holds in JS. -/
def numTs : Option JVal → Option ℚ
  | some (JVal.num q) => some q
  | _ => none

/-- JS truthiness of a timestamp field. -/
def truthyTs : Option JVal → Bool
  | none => false
  | some (JVal.num q) => q != 0
  | some (JVal.str s) => s != ""

/-- `rpt.description?.length || 0`. -/
def descLen (r : Report) : ℕ := (r.description.getD "").length

/-- `mergedTimestamps`: the numeric timestamps of the Merged snapshot
(`Object.values(mergedData).filter(m => typeof m.timestamp === 'number').map(m => m.timestamp)`). -/
def mergedTimestamps (merged : List (String × Report)) : List ℚ :=
  merged.filterMap (fun p => numTs p.2.timestamp)

/-- The Live retention sweep: delete a live record whose timestamp is a
truthy number, is older than `MAX_AGE`, and does not occur among the
numeric Merged timestamps.  Records with a missing, non-numeric or zero
timestamp are skipped. -/
def liveSweep (now : ℚ) (live merged : List (String × Report)) : List Write :=
  live.filterMap (fun p =>
    match numTs p.2.timestamp with
    | some q =>
        if q ≠ 0 ∧ now - q > MAX_AGE ∧ q ∉ mergedTimestamps merged then
          some (Path.live p.1, none)
        else none
    | none => none)

/-- The Trash retention sweep: unconditional TTL on truthy numeric
timestamps. -/
def trashSweep (now : ℚ) (trash : List (String × Report)) : List Write :=
  trash.filterMap (fun p =>
    match numTs p.2.timestamp with
    | some q =>
        if q ≠ 0 ∧ now - q > MAX_AGE then some (Path.trash p.1, none) else none
    | none => none)

/-- The user sweep: clear `lastReportTimestamp` when truthy, numeric and
older than `MAX_AGE`. -/
def userSweep (now : ℚ) (users : List (String × Option JVal)) : List Write :=
  users.filterMap (fun p =>
    match numTs p.2 with
    | some q =>
        if q ≠ 0 ∧ now - q > MAX_AGE then some (Path.userLast p.1, none) else none
    | none => none)

/-- The Merged retention sweep. -/
def mergedSweep (now : ℚ) (merged : List (String × Report)) : List Write :=
  merged.filterMap (fun p =>
    match numTs p.2.timestamp with
    | some q =>
        if q ≠ 0 ∧ now - q > MAX_AGE then some (Path.merged p.1, none) else none
    | none => none)

/-- State of the Merged deduplication fold: the `seenCoords` map
(coordinate key to (id, description length)) and the deletions emitted so
far, in program order. -/
abbrev DedupState := List ((ℚ × ℚ) × (String × ℕ)) × List Write

/-- One step of the Merged deduplication pass of the primary variant
(`seenCoords`, keep the longer description, strict `>` so ties keep the
first encountered).  Records with a falsy latitude or longitude are
skipped. -/
def mergedDedupStep (acc : DedupState) (p : String × Report) : DedupState :=
  if truthyQ p.2.latitude ∧ truthyQ p.2.longitude then
    match p.2.latitude, p.2.longitude with
    | some a, some b =>
        match kget acc.1 (a, b) with
        | some e =>
            if descLen p.2 > e.2 then
              (kset acc.1 (a, b) (p.1, descLen p.2),
               acc.2 ++ [(Path.merged e.1, none)])
            else
              (acc.1, acc.2 ++ [(Path.merged p.1, none)])
        | none => (acc.1 ++ [((a, b), (p.1, descLen p.2))], acc.2)
    | _, _ => acc
  else acc

/-- The Merged deduplication pass of the primary variant. -/
def mergedDedup (merged : List (String × Report)) : List Write :=
  (merged.foldl mergedDedupStep ([], [])).2

/-- The Merged deduplication pass of the older `processReports.js`
iteration: a `seen` set of coordinate keys; every later record with an
already seen key is deleted regardless of description length.  No
coordinate guard: the key is the interpolated string, modelled as the pair
of optional fields. -/
def mergedDedupSeenFirst (merged : List (String × Report)) : List Write :=
  (merged.foldl
    (fun (acc : List (Option ℚ × Option ℚ) × List Write) p =>
      let key := (p.2.latitude, p.2.longitude)
      if key ∈ acc.1 then (acc.1, acc.2 ++ [(Path.merged p.1, none)])
      else (acc.1 ++ [key], acc.2))
    ([], [])).2

/-- The Live-versus-Merged deduplication pass: for every live record with
truthy coordinates and every merged record at strictly equal coordinates,
delete whichever side has the strictly shorter description. -/
def liveVsMerged (live merged : List (String × Report)) : List Write :=
  live.flatMap (fun p =>
    if truthyQ p.2.latitude ∧ truthyQ p.2.longitude then
      merged.flatMap (fun m =>
        if m.2.latitude = p.2.latitude ∧ m.2.longitude = p.2.longitude then
          if descLen p.2 < descLen m.2 then [(Path.live p.1, none)]
          else if descLen p.2 > descLen m.2 then [(Path.merged m.1, none)]
          else []
        else [])
    else [])

/-- The restoration step: copy a merged record back into Live when its id
has no live record, its timestamp is a truthy number and it is not past
`MAX_AGE`. -/
def restoration (now : ℚ) (live merged : List (String × Report)) : List Write :=
  merged.filterMap (fun p =>
    match numTs p.2.timestamp with
    | some q =>
        if q ≠ 0 ∧ (kget live p.1).isNone ∧ now - q ≤ MAX_AGE then
          some (Path.live p.1, some p.2)
        else none
    | none => none)

/-- The distance oracle standing for the floating-point `haversine`
function, applied as in the source: anchor latitude, anchor longitude,
candidate latitude, candidate longitude. -/
abbrev Dist := ℚ → ℚ → ℚ → ℚ → ℚ

/-- Cluster candidacy of an anchor: truthy `type`, numeric `latitude`,
`longitude` and `timestamp` (`typeof ... === "number"`, so zero is
allowed), truthy `icon` and truthy `usersubmitting`. -/
def candidate (r : Report) : Bool :=
  truthy r.type && r.latitude.isSome && r.longitude.isSome &&
  (numTs r.timestamp).isSome && truthy r.icon && truthy r.usersubmitting

/-- `haversine(rA.lat, rA.lon, rB.lat, rB.lon) <= MERGE_RADIUS`.  A missing
coordinate makes the JS value `NaN` and the comparison false. -/
def withinRadius (dist : Dist) (rA rB : Report) : Bool :=
  match rA.latitude, rA.longitude, rB.latitude, rB.longitude with
  | some a1, some o1, some a2, some o2 => decide (dist a1 o1 a2 o2 ≤ MERGE_RADIUS)
  | _, _, _, _ => false

/-- The inner scan of the clustering loop: walk the entries after the
anchor in order, skip processed ids and type mismatches, and absorb every
record within `MERGE_RADIUS` of the anchor, marking it processed at once. -/
def collectGo (dist : Dist) (rA : Report) :
    List (String × Report) → List String → List (String × Report)
  | [], _ => []
  | p :: rest, proc =>
      if p.1 ∈ proc then collectGo dist rA rest proc
      else if p.2.type ≠ rA.type then collectGo dist rA rest proc
      else if withinRadius dist rA p.2 then
        p :: collectGo dist rA rest (proc ++ [p.1])
      else collectGo dist rA rest proc

/-- The outer clustering loop: every unprocessed complete record anchors a
new cluster consisting of itself and the members collected from the
remaining entries; all cluster ids are marked processed. -/
def clustersGo (dist : Dist) :
    List (String × Report) → List String → List (List (String × Report))
  | [], _ => []
  | p :: rest, proc =>
      if p.1 ∈ proc then clustersGo dist rest proc
      else if candidate p.2 then
        let mem := collectGo dist p.2 rest (proc ++ [p.1])
        (p :: mem) :: clustersGo dist rest ((proc ++ [p.1]) ++ mem.map (fun m => m.1))
      else clustersGo dist rest proc

/-- All greedy clusters of a Live snapshot (singletons included). -/
def clusters (dist : Dist) (live : List (String × Report)) :
    List (List (String × Report)) :=
  clustersGo dist live []

/-- The clusters that actually merge (`cluster.length < 2` is skipped). -/
def bigClusters (dist : Dist) (live : List (String × Report)) :
    List (List (String × Report)) :=
  (clusters dist live).filter (fun c => decide (2 ≤ c.length))

/-- `cluster.map(r => r.description || "").join(", ")` of the primary
variant: every member contributes, empty and missing descriptions
included, separator comma-space. -/
def clusterDesc (c : List (String × Report)) : String :=
  String.intercalate ", " (c.map (fun p => p.2.description.getD ""))

/-- The older `processReports.js` iteration of the description synthesis:
`.map(r => r.description || "").filter(d => d).join(",")` — empty
descriptions omitted, separator a bare comma. -/
def clusterDescFiltered (c : List (String × Report)) : String :=
  String.intercalate "," ((c.map (fun p => p.2.description.getD "")).filter
    (fun d => d != ""))

/-- `Math.max(...cluster.map(r => r.timestamp))`: defined when every member
timestamp is numeric; a member with a missing or string timestamp makes
the JS value `NaN`, modelled as `none`. -/
def clusterMaxTs (c : List (String × Report)) : Option ℚ :=
  let ts := c.filterMap (fun p => numTs p.2.timestamp)
  if ts.length = c.length then
    match ts with
    | [] => none
    | h :: t => some (t.foldl max h)
  else none

def defaultReport : Report := {}

/-- `cluster.find(r => r.timestamp === maxTs)?.[1] || cluster[0][1]`: the
first member whose timestamp strictly equals the maximum; when the maximum
is `NaN` the find fails and the anchor is used. -/
def clusterLatest (c : List (String × Report)) : Report :=
  match clusterMaxTs c with
  | some m =>
      match c.find? (fun p => decide (numTs p.2.timestamp = some m)) with
      | some p => p.2
      | none => (c.headD ("", defaultReport)).2
  | none => (c.headD ("", defaultReport)).2

/-- The synthesized merged record of the primary variant. -/
def synthesize (c : List (String × Report)) : Report :=
  { description := some (clusterDesc c)
    icon := (clusterLatest c).icon
    latitude := (clusterLatest c).latitude
    longitude := (clusterLatest c).longitude
    timestamp := (clusterMaxTs c).map JVal.num
    type := (clusterLatest c).type
    usersubmitting := some "0" }

/-- The duplicate check of the `part_000` variant: any live record at the
synthesized coordinates blocks the Live write (cluster members are not
excluded). -/
def isDuplicateA (live : List (String × Report)) (obj : Report) : Bool :=
  live.any (fun p =>
    decide (p.2.latitude = obj.latitude ∧ p.2.longitude = obj.longitude))

/-- The duplicate check of the final `processReports.js` variant: only a
live record outside this cluster blocks the Live write. -/
def isDuplicateB (live : List (String × Report)) (clusterIds : List String)
    (obj : Report) : Bool :=
  live.any (fun p =>
    decide (p.1 ∉ clusterIds ∧ p.2.latitude = obj.latitude ∧
      p.2.longitude = obj.longitude))

/-- The writes a single merging cluster contributes, in program order: the
conditional Live write of the synthesized record, its unconditional Merged
write, then per member a full Trash copy and a Live deletion.
`excl` selects the duplicate check (`false` = `part_000`,
`true` = final `processReports.js`). -/
def memberWrites (c : List (String × Report)) : List Write :=
  c.flatMap (fun p => [(Path.trash p.1, some p.2), (Path.live p.1, none)])

def clusterWrites (excl : Bool) (live : List (String × Report)) (key : String)
    (c : List (String × Report)) : List Write :=
  let obj := synthesize c
  let dup := if excl then isDuplicateB live (c.map (fun p => p.1)) obj
             else isDuplicateA live obj
  (if dup then [] else [(Path.live key, some obj)]) ++
  [(Path.merged key, some obj)] ++
  memberWrites c

/-- The merge pass over the ordered list of merging clusters; the `n`-th
merging cluster consumes the `n`-th generated key. -/
def mergeGo (excl : Bool) (live : List (String × Report)) (keys : ℕ → String) :
    ℕ → List (List (String × Report)) → List Write
  | _, [] => []
  | n, c :: cs => clusterWrites excl live (keys n) c ++ mergeGo excl live keys (n + 1) cs

/-- The cluster-and-merge pass. -/
def mergePass (excl : Bool) (dist : Dist) (keys : ℕ → String)
    (live : List (String × Report)) : List Write :=
  mergeGo excl live keys 0 (bigClusters dist live)

/-- The whole run's pending change-set, in program order: Live sweep, Trash
sweep, user sweep, Merged sweep, Merged dedup, Live-vs-Merged dedup,
restoration, cluster merge. -/
def computeUpdates (excl : Bool) (dist : Dist) (keys : ℕ → String) (now : ℚ)
    (s : Store) : List Write :=
  liveSweep now s.live s.merged ++ trashSweep now s.trash ++
  userSweep now s.users ++ mergedSweep now s.merged ++
  mergedDedup s.merged ++ liveVsMerged s.live s.merged ++
  restoration now s.live s.merged ++ mergePass excl dist keys s.live

/-- Apply one write of the multi-path update to the store. -/
def applyOne (s : Store) : Write → Store
  | (Path.live id, some r) => { s with live := kset s.live id r }
  | (Path.live id, none) => { s with live := kdel s.live id }
  | (Path.trash id, some r) => { s with trash := kset s.trash id r }
  | (Path.trash id, none) => { s with trash := kdel s.trash id }
  | (Path.merged id, some r) => { s with merged := kset s.merged id r }
  | (Path.merged id, none) => { s with merged := kdel s.merged id }
  | (Path.userLast uid, _) => { s with users := kset s.users uid none }

/-- `db.ref().update(updates)`: the single atomic multi-path write. -/
def applyStore (s : Store) (u : List Write) : Store :=
  u.foldl applyOne s

/-- One full run on a store: read the four snapshots, compute the pending
change-set, apply it atomically. -/
def runOnStore (excl : Bool) (dist : Dist) (keys : ℕ → String) (now : ℚ)
    (s : Store) : Store :=
  applyStore s (computeUpdates excl dist keys now s)

/-- All values written to a path, in program order. -/
def writesTo (u : List Write) (p : Path) : List (Option Report) :=
  (u.filter (fun e => decide (e.1 = p))).map (fun e => e.2)

/-- The value a path holds after applying a write list on top of a default:
JS object-assignment semantics, the last write to a path wins. -/
def lastVal (u : List Write) (p : Path) (d : Option Report) : Option Report :=
  u.foldl (fun acc e => if e.1 = p then e.2 else acc) d

/-- The duplicate flag actually used for a cluster. -/
def dupFlag (excl : Bool) (live : List (String × Report))
    (c : List (String × Report)) : Bool :=
  if excl then isDuplicateB live (c.map (fun p => p.1)) (synthesize c)
  else isDuplicateA live (synthesize c)

/-- The ids of all cluster members, flattened. -/
def flatIds (cs : List (List (String × Report))) : List String :=
  cs.flatMap (fun c => c.map (fun p => p.1))

/-- The records of a Merged snapshot lying at exactly the coordinate key
`(a, b)` (claim-side definition of a coordinate group). -/
def coordGroup (merged : List (String × Report)) (a b : ℚ) :
    List (String × Report) :=
  merged.filter (fun p => decide (p.2.latitude = some a ∧ p.2.longitude = some b))

/-- Claim-side definition of the kept record of a group: the running
maximum of description length under strict replacement, i.e. the first
record encountered among those of maximal description length. -/
def firstLongest : List (String × Report) → String × Report
  | [] => ("", defaultReport)
  | p :: rest =>
      rest.foldl (fun best r => if descLen r.2 > descLen best.2 then r else best) p

/-- Fold invariant 1: `seenCoords` holds, per coordinate key, the id and
description length of the first-longest record of the processed prefix. -/
def SeenInv (pre : List (String × Report)) (acc : DedupState) : Prop :=
  ∀ a b : ℚ, a ≠ 0 → b ≠ 0 →
    kget acc.1 (a, b) =
      (if coordGroup pre a b = [] then none
       else some ((firstLongest (coordGroup pre a b)).1,
         descLen (firstLongest (coordGroup pre a b)).2))

/-- Fold invariant 2: a processed record has been tombstoned exactly when
it is not the first-longest of its coordinate group. -/
def DelIffInv (pre : List (String × Report)) (acc : DedupState) : Prop :=
  ∀ a b : ℚ, a ≠ 0 → b ≠ 0 → ∀ p ∈ coordGroup pre a b,
    ((Path.merged p.1, (none : Option Report)) ∈ acc.2 ↔
      p ≠ firstLongest (coordGroup pre a b))

/-- Fold invariant 3: every emitted tombstone names a processed id. -/
def DelIdsInv (pre : List (String × Report)) (acc : DedupState) : Prop :=
  ∀ i, (Path.merged i, (none : Option Report)) ∈ acc.2 →
    i ∈ pre.map (fun p => p.1)

/-- Concrete records for the C7 witness and counterexample. -/
def dupShort : Report :=
  { latitude := some 1
    longitude := some 1
    description := some "x" }

def dupLong : Report :=
  { latitude := some 1
    longitude := some 1
    description := some "yy" }

def zeroLatShort : Report :=
  { latitude := some 0
    longitude := some 5
    description := some "x" }

def zeroLatLong : Report :=
  { latitude := some 0
    longitude := some 5
    description := some "yy" }

/-- Claim-side definition: the maximum numeric member timestamp of a
cluster. -/
def maxTsSpec (c : List (String × Report)) : ℚ :=
  match c.filterMap (fun p => numTs p.2.timestamp) with
  | [] => 0
  | h :: t => t.foldl max h

/-- Claim-side definition: the first cluster member whose timestamp equals
the maximum (ties resolved to the first such member in cluster order). -/
def argmaxTs (c : List (String × Report)) : String × Report :=
  match c.find? (fun p => decide (numTs p.2.timestamp = some (maxTsSpec c))) with
  | some p => p
  | none => c.headD ("", defaultReport)

/-- Concrete records for the C8 witness and counterexample: member "a"
has the later timestamp and description "A"; member "b" has an empty
description. -/
def c8A : Report :=
  { type := some "fire"
    latitude := some 2
    longitude := some 3
    timestamp := some (JVal.num 50)
    description := some "A"
    icon := some "i"
    usersubmitting := some "u" }

def c8B : Report :=
  { type := some "fire"
    latitude := some 4
    longitude := some 5
    timestamp := some (JVal.num 40)
    description := some ""
    icon := some "j"
    usersubmitting := some "v" }

/-- Concrete records for the C4 counterexample: a live record with the
strictly shorter description at the same coordinates as a merged record;
it is not cluster-eligible (no type), and it is not expired. -/
def c4L : Report :=
  { latitude := some 1
    longitude := some 2
    description := some "a"
    timestamp := some (JVal.num 50) }

def c4M : Report :=
  { latitude := some 1
    longitude := some 2
    description := some "bb" }

/-- An injective key supply for witnesses: `n` maps to a string of `n + 1`
copies of the letter k. -/
def keysW : ℕ → String := fun n => String.mk (List.replicate (n + 1) (Char.ofNat 107))

/-- An outside live record at the synthesized coordinates but of another
type (so it joins no cluster): it triggers the duplicate skip. -/
def c10out : Report :=
  { type := some "x"
    latitude := some 2
    longitude := some 3
    description := some "o"
    timestamp := some (JVal.num 45) }

/-- The three-record chain for the C1 counterexample: the anchor X absorbs
A, leaving B (within radius of A but not of X) in a discarded singleton
cluster. -/
def chX : Report :=
  { type := some "fire"
    latitude := some 0
    longitude := some 0
    timestamp := some (JVal.num 100)
    description := some "X"
    icon := some "i"
    usersubmitting := some "u" }

def chA : Report :=
  { type := some "fire"
    latitude := some 0
    longitude := some (8 / 100)
    timestamp := some (JVal.num 110)
    description := some "A"
    icon := some "i"
    usersubmitting := some "u" }

def chB : Report :=
  { type := some "fire"
    latitude := some 0
    longitude := some (16 / 100)
    timestamp := some (JVal.num 120)
    description := some "B"
    icon := some "i"
    usersubmitting := some "u" }

/-- A concrete flat distance oracle: absolute longitude difference (the
same configuration is realizable by the floating-point haversine with
collinear equatorial points). -/
def chDist : Dist := fun _ lo1 _ lo2 => max (lo2 - lo1) (lo1 - lo2)

/-- The store operations a run performs, in order: the four snapshot
reads and the single multi-path update.  (`liveRef.push()` generates keys
client-side and performs no store operation, per the store contract.) -/
inductive StoreOp where
  | readLive
  | readTrash
  | readUsers
  | readMerged
  | writeUpdate (u : List Write)

def isWrite : StoreOp → Bool
  | StoreOp.writeUpdate _ => true
  | _ => false

/-- Effect of one store operation on the store: reads leave it unchanged,
the single update applies atomically. -/
def opEffect (s : Store) : StoreOp → Store
  | StoreOp.writeUpdate u => applyStore s u
  | _ => s

/-- The run's store-operation trace, derived from the source: four reads
(`Promise.all`), then exactly one `db.ref().update(updates)`. -/
def runTrace (excl : Bool) (dist : Dist) (keys : ℕ → String) (now : ℚ)
    (s : Store) : List StoreOp :=
  [StoreOp.readLive, StoreOp.readTrash, StoreOp.readUsers, StoreOp.readMerged,
   StoreOp.writeUpdate (computeUpdates excl dist keys now s)]

/-- The store after the first `k` operations of the trace (a run that
fails after `k` operations has performed exactly these). -/
def runUpTo (excl : Bool) (dist : Dist) (keys : ℕ → String) (now : ℚ)
    (k : ℕ) (s : Store) : Store :=
  ((runTrace excl dist keys now s).take k).foldl opEffect s

/-- Concrete merged records for the C5 counterexample: same coordinates,
different description lengths, both fresh, neither cluster-eligible. -/
def c5m1 : Report :=
  { latitude := some 1
    longitude := some 1
    description := some "a"
    timestamp := some (JVal.num 1500) }

def c5m2 : Report :=
  { latitude := some 1
    longitude := some 1
    description := some "bbb"
    timestamp := some (JVal.num 1600) }

theorem lastVal_nil (p : Path) (d : Option Report) : lastVal [] p d = d := rfl

theorem lastVal_cons (e : Write) (u : List Write) (p : Path) (d : Option Report) :
    lastVal (e :: u) p d = lastVal u p (if e.1 = p then e.2 else d) := rfl

theorem lastVal_append (u v : List Write) (p : Path) (d : Option Report) :
    lastVal (u ++ v) p d = lastVal v p (lastVal u p d) :=
  List.foldl_append _ _ _ _

theorem lastVal_of_not_written (u : List Write) (p : Path) (d : Option Report)
    (h : ∀ e ∈ u, e.1 ≠ p) : lastVal u p d = d := by
  induction u generalizing d with
  | nil => rfl
  | cons e u ih =>
      rw [lastVal_cons, if_neg (h e (List.mem_cons_self e u)),
        ih d (fun x hx => h x (List.mem_cons_of_mem e hx))]

theorem lastVal_eq_getLastD (u : List Write) (p : Path) (d : Option Report) :
    lastVal u p d = (writesTo u p).getLastD d := by
  induction u generalizing d with
  | nil => rfl
  | cons e u ih =>
      rw [lastVal_cons]
      by_cases h : e.1 = p
      · rw [if_pos h, ih]
        have : writesTo (e :: u) p = e.2 :: writesTo u p := by
          simp [writesTo, List.filter_cons, h]
        rw [this, List.getLastD_cons]
      · rw [if_neg h, ih]
        have : writesTo (e :: u) p = writesTo u p := by
          simp [writesTo, List.filter_cons, h]
        rw [this]

theorem kget_nil {α β : Type} [DecidableEq α] (k : α) :
    kget ([] : List (α × β)) k = none := rfl

theorem kget_cons {α β : Type} [DecidableEq α] (a : α) (b : β) (l : List (α × β))
    (k : α) : kget ((a, b) :: l) k = if a = k then some b else kget l k := by
  by_cases h : a = k
  · simp [kget, List.find?_cons_of_pos, h]
  · have hp : ¬ ((fun (p : α × β) => decide (p.1 = k)) (a, b) = true) := by
      simpa using h
    simp [kget, List.find?_cons_of_neg _ hp, h]

theorem kget_kset {α β : Type} [DecidableEq α] (l : List (α × β)) (k k2 : α) (v : β) :
    kget (kset l k v) k2 = if k2 = k then some v else kget l k2 := by
  induction l with
  | nil =>
      by_cases h : k2 = k
      · subst h
        simp [kset, kget_cons]
      · have h2 : ¬ k = k2 := fun hh => h hh.symm
        simp [kset, kget_cons, kget_nil, h, h2]
  | cons e l ih =>
      obtain ⟨a, b⟩ := e
      by_cases hk : a = k
      · subst hk
        simp only [kset, if_pos rfl]
        by_cases h : k2 = a
        · simp [kget_cons, h]
        · have h2 : ¬ a = k2 := fun hh => h hh.symm
          simp [kget_cons, h, h2]
      · simp only [kset, if_neg hk]
        by_cases h : a = k2
        · subst h
          simp [kget_cons, hk]
        · simp [kget_cons, h, ih]

theorem kget_kdel {α β : Type} [DecidableEq α] (l : List (α × β)) (k k2 : α) :
    kget (kdel l k) k2 = if k2 = k then none else kget l k2 := by
  induction l with
  | nil => by_cases h : k2 = k <;> simp [kget_nil, kdel, h]
  | cons e l ih =>
      obtain ⟨a, b⟩ := e
      by_cases hk : a = k
      · subst hk
        have : kdel ((a, b) :: l) a = kdel l a := by
          simp [kdel, List.filter_cons]
        rw [this, ih]
        by_cases h : k2 = a
        · simp [h]
        · simp [h, kget_cons, Ne.symm h]
      · have : kdel ((a, b) :: l) k = (a, b) :: kdel l k := by
          simp [kdel, List.filter_cons, hk]
        rw [this, kget_cons, kget_cons]
        by_cases h : a = k2
        · subst h
          simp [hk, fun hh => hk (Eq.symm hh)]
        · simp [h, ih]

/-- A successful lookup exhibits a member of the association list. -/
theorem kget_mem {α β : Type} [DecidableEq α] {l : List (α × β)} {k : α} {v : β}
    (h : kget l k = some v) : (k, v) ∈ l := by
  induction l with
  | nil => simp [kget] at h
  | cons e l ih =>
      obtain ⟨a, b⟩ := e
      rw [kget_cons] at h
      by_cases hk : a = k
      · rw [if_pos hk] at h
        subst hk
        rw [Option.some_inj.1 h]
        exact List.mem_cons_self _ _
      · rw [if_neg hk] at h
        exact List.mem_cons_of_mem _ (ih h)

/-- A key absent from an association list looks up to `none`. -/
theorem kget_eq_none_of_not_mem {α β : Type} [DecidableEq α]
    (l : List (α × β)) (k : α) (h : k ∉ l.map (fun p => p.1)) : kget l k = none := by
  induction l with
  | nil => rfl
  | cons e l ih =>
      obtain ⟨a, b⟩ := e
      have h1 : a ≠ k := by
        intro hh
        exact h (by simp [hh])
      have h2 : k ∉ l.map (fun p => p.1) := fun hh => h (by simp [hh])
      rw [kget_cons, if_neg h1, ih h2]

theorem kget_applyOne_live (s : Store) (e : Write) (id : String) :
    kget (applyOne s e).live id =
      if e.1 = Path.live id then e.2 else kget s.live id := by
  obtain ⟨p, v⟩ := e
  cases p with
  | live id2 =>
      by_cases h : id2 = id
      · subst h
        cases v <;> simp [applyOne, kget_kset, kget_kdel]
      · have h2 : ¬ id = id2 := fun hh => h hh.symm
        cases v <;> simp [applyOne, kget_kset, kget_kdel, h, h2]
  | trash id2 => cases v <;> simp [applyOne]
  | merged id2 => cases v <;> simp [applyOne]
  | userLast uid => cases v <;> simp [applyOne]

theorem kget_applyOne_trash (s : Store) (e : Write) (id : String) :
    kget (applyOne s e).trash id =
      if e.1 = Path.trash id then e.2 else kget s.trash id := by
  obtain ⟨p, v⟩ := e
  cases p with
  | trash id2 =>
      by_cases h : id2 = id
      · subst h
        cases v <;> simp [applyOne, kget_kset, kget_kdel]
      · have h2 : ¬ id = id2 := fun hh => h hh.symm
        cases v <;> simp [applyOne, kget_kset, kget_kdel, h, h2]
  | live id2 => cases v <;> simp [applyOne]
  | merged id2 => cases v <;> simp [applyOne]
  | userLast uid => cases v <;> simp [applyOne]

theorem kget_applyOne_merged (s : Store) (e : Write) (id : String) :
    kget (applyOne s e).merged id =
      if e.1 = Path.merged id then e.2 else kget s.merged id := by
  obtain ⟨p, v⟩ := e
  cases p with
  | merged id2 =>
      by_cases h : id2 = id
      · subst h
        cases v <;> simp [applyOne, kget_kset, kget_kdel]
      · have h2 : ¬ id = id2 := fun hh => h hh.symm
        cases v <;> simp [applyOne, kget_kset, kget_kdel, h, h2]
  | live id2 => cases v <;> simp [applyOne]
  | trash id2 => cases v <;> simp [applyOne]
  | userLast uid => cases v <;> simp [applyOne]

theorem applyStore_nil (s : Store) : applyStore s [] = s := rfl

theorem applyStore_cons (s : Store) (e : Write) (u : List Write) :
    applyStore s (e :: u) = applyStore (applyOne s e) u := rfl

/-- The Live collection after the atomic apply: the last write to the path
wins, otherwise the snapshot value survives. -/
theorem kget_applyStore_live (u : List Write) (s : Store) (id : String) :
    kget (applyStore s u).live id = lastVal u (Path.live id) (kget s.live id) := by
  induction u generalizing s with
  | nil => rfl
  | cons e u ih =>
      rw [applyStore_cons, ih, lastVal_cons, kget_applyOne_live]

theorem kget_applyStore_trash (u : List Write) (s : Store) (id : String) :
    kget (applyStore s u).trash id = lastVal u (Path.trash id) (kget s.trash id) := by
  induction u generalizing s with
  | nil => rfl
  | cons e u ih =>
      rw [applyStore_cons, ih, lastVal_cons, kget_applyOne_trash]

theorem kget_applyStore_merged (u : List Write) (s : Store) (id : String) :
    kget (applyStore s u).merged id = lastVal u (Path.merged id) (kget s.merged id) := by
  induction u generalizing s with
  | nil => rfl
  | cons e u ih =>
      rw [applyStore_cons, ih, lastVal_cons, kget_applyOne_merged]

theorem mem_liveSweep {now : ℚ} {live merged : List (String × Report)} {e : Write}
    (h : e ∈ liveSweep now live merged) :
    ∃ p ∈ live, e = (Path.live p.1, none) := by
  obtain ⟨p, hp, he⟩ := List.mem_filterMap.1 h
  refine ⟨p, hp, ?_⟩
  cases hn : numTs p.2.timestamp with
  | none => simp [hn] at he
  | some q =>
      simp only [hn] at he
      by_cases hc : q ≠ 0 ∧ now - q > MAX_AGE ∧ q ∉ mergedTimestamps merged
      · rw [if_pos hc] at he
        exact (Option.some_inj.1 he).symm
      · rw [if_neg hc] at he
        exact absurd he (by simp)

theorem mem_trashSweep {now : ℚ} {trash : List (String × Report)} {e : Write}
    (h : e ∈ trashSweep now trash) :
    ∃ p ∈ trash, e = (Path.trash p.1, none) := by
  obtain ⟨p, hp, he⟩ := List.mem_filterMap.1 h
  refine ⟨p, hp, ?_⟩
  cases hn : numTs p.2.timestamp with
  | none => simp [hn] at he
  | some q =>
      simp only [hn] at he
      by_cases hc : q ≠ 0 ∧ now - q > MAX_AGE
      · rw [if_pos hc] at he
        exact (Option.some_inj.1 he).symm
      · rw [if_neg hc] at he
        exact absurd he (by simp)

theorem mem_userSweep {now : ℚ} {users : List (String × Option JVal)} {e : Write}
    (h : e ∈ userSweep now users) :
    ∃ p ∈ users, e = (Path.userLast p.1, none) := by
  obtain ⟨p, hp, he⟩ := List.mem_filterMap.1 h
  refine ⟨p, hp, ?_⟩
  cases hn : numTs p.2 with
  | none => simp [hn] at he
  | some q =>
      simp only [hn] at he
      by_cases hc : q ≠ 0 ∧ now - q > MAX_AGE
      · rw [if_pos hc] at he
        exact (Option.some_inj.1 he).symm
      · rw [if_neg hc] at he
        exact absurd he (by simp)

theorem mem_mergedSweep {now : ℚ} {merged : List (String × Report)} {e : Write}
    (h : e ∈ mergedSweep now merged) :
    ∃ p ∈ merged, e = (Path.merged p.1, none) := by
  obtain ⟨p, hp, he⟩ := List.mem_filterMap.1 h
  refine ⟨p, hp, ?_⟩
  cases hn : numTs p.2.timestamp with
  | none => simp [hn] at he
  | some q =>
      simp only [hn] at he
      by_cases hc : q ≠ 0 ∧ now - q > MAX_AGE
      · rw [if_pos hc] at he
        exact (Option.some_inj.1 he).symm
      · rw [if_neg hc] at he
        exact absurd he (by simp)

theorem mem_restoration {now : ℚ} {live merged : List (String × Report)} {e : Write}
    (h : e ∈ restoration now live merged) :
    ∃ p ∈ merged, e = (Path.live p.1, some p.2) := by
  obtain ⟨p, hp, he⟩ := List.mem_filterMap.1 h
  refine ⟨p, hp, ?_⟩
  cases hn : numTs p.2.timestamp with
  | none => simp [hn] at he
  | some q =>
      simp only [hn] at he
      by_cases hc : q ≠ 0 ∧ (kget live p.1).isNone ∧ now - q ≤ MAX_AGE
      · rw [if_pos hc] at he
        exact (Option.some_inj.1 he).symm
      · rw [if_neg hc] at he
        exact absurd he (by simp)

theorem mem_liveVsMerged {live merged : List (String × Report)} {e : Write}
    (h : e ∈ liveVsMerged live merged) :
    (∃ p ∈ live, e = (Path.live p.1, none)) ∨
    (∃ m ∈ merged, e = (Path.merged m.1, none)) := by
  obtain ⟨p, hp, he⟩ := List.mem_flatMap.1 h
  by_cases hg : truthyQ p.2.latitude ∧ truthyQ p.2.longitude
  · rw [if_pos hg] at he
    obtain ⟨m, hm, he2⟩ := List.mem_flatMap.1 he
    by_cases hc : m.2.latitude = p.2.latitude ∧ m.2.longitude = p.2.longitude
    · rw [if_pos hc] at he2
      by_cases h1 : descLen p.2 < descLen m.2
      · rw [if_pos h1] at he2
        exact Or.inl ⟨p, hp, (List.mem_singleton.1 he2)⟩
      · rw [if_neg h1] at he2
        by_cases h2 : descLen p.2 > descLen m.2
        · rw [if_pos h2] at he2
          exact Or.inr ⟨m, hm, (List.mem_singleton.1 he2)⟩
        · rw [if_neg h2] at he2
          exact absurd he2 (List.not_mem_nil e)
    · rw [if_neg hc] at he2
      exact absurd he2 (List.not_mem_nil e)
  · rw [if_neg hg] at he
    exact absurd he (List.not_mem_nil e)

theorem mem_kset {α β : Type} [DecidableEq α] {l : List (α × β)} {k : α} {v : β}
    {q : α × β} (h : q ∈ kset l k v) : q ∈ l ∨ q = (k, v) := by
  induction l with
  | nil => simpa [kset] using h
  | cons e l ih =>
      obtain ⟨a, b⟩ := e
      by_cases hk : a = k
      · rw [kset, if_pos hk] at h
        rcases List.mem_cons.1 h with h1 | h1
        · exact Or.inr h1
        · exact Or.inl (List.mem_cons_of_mem _ h1)
      · rw [kset, if_neg hk] at h
        rcases List.mem_cons.1 h with h1 | h1
        · exact Or.inl (h1 ▸ List.mem_cons_self _ _)
        · rcases ih h1 with h2 | h2
          · exact Or.inl (List.mem_cons_of_mem _ h2)
          · exact Or.inr h2

/-- Soundness of the Merged dedup fold: every emitted write is a tombstone
on the id of some input record, provided the accumulator is sound. -/
theorem mergedDedup_fold_sound (S : List String) :
    ∀ (l : List (String × Report)) (acc : DedupState),
      (∀ p ∈ l, p.1 ∈ S) →
      (∀ q ∈ acc.1, q.2.1 ∈ S) →
      (∀ w ∈ acc.2, ∃ i ∈ S, w = (Path.merged i, none)) →
      ∀ w ∈ (l.foldl mergedDedupStep acc).2, ∃ i ∈ S, w = (Path.merged i, none) := by
  intro l
  induction l with
  | nil => intro acc _ _ hdels w hw; exact hdels w hw
  | cons p rest ih =>
      intro acc hl hseen hdels w hw
      rw [List.foldl_cons] at hw
      have hpS : p.1 ∈ S := hl p (List.mem_cons_self _ _)
      have hrest : ∀ q ∈ rest, q.1 ∈ S := fun q hq => hl q (List.mem_cons_of_mem _ hq)
      refine ih (mergedDedupStep acc p) hrest ?_ ?_ w hw
      · intro q hq
        unfold mergedDedupStep at hq
        by_cases hg : truthyQ p.2.latitude ∧ truthyQ p.2.longitude
        · rw [if_pos hg] at hq
          cases hla : p.2.latitude with
          | none => simp only [hla] at hq; exact hseen q hq
          | some a =>
              cases hlo : p.2.longitude with
              | none => simp only [hla, hlo] at hq; exact hseen q hq
              | some b =>
                  simp only [hla, hlo] at hq
                  cases hk : kget acc.1 (a, b) with
                  | some e =>
                      simp only [hk] at hq
                      by_cases hd : descLen p.2 > e.2
                      · rw [if_pos hd] at hq
                        rcases mem_kset hq with h1 | h1
                        · exact hseen q h1
                        · rw [h1]; exact hpS
                      · rw [if_neg hd] at hq
                        exact hseen q hq
                  | none =>
                      simp only [hk] at hq
                      rcases List.mem_append.1 hq with h1 | h1
                      · exact hseen q h1
                      · rw [List.mem_singleton.1 h1]; exact hpS
        · rw [if_neg hg] at hq
          exact hseen q hq
      · intro w2 hw2
        unfold mergedDedupStep at hw2
        by_cases hg : truthyQ p.2.latitude ∧ truthyQ p.2.longitude
        · rw [if_pos hg] at hw2
          cases hla : p.2.latitude with
          | none => simp only [hla] at hw2; exact hdels w2 hw2
          | some a =>
              cases hlo : p.2.longitude with
              | none => simp only [hla, hlo] at hw2; exact hdels w2 hw2
              | some b =>
                  simp only [hla, hlo] at hw2
                  cases hk : kget acc.1 (a, b) with
                  | some e =>
                      simp only [hk] at hw2
                      by_cases hd : descLen p.2 > e.2
                      · rw [if_pos hd] at hw2
                        rcases List.mem_append.1 hw2 with h1 | h1
                        · exact hdels w2 h1
                        · refine ⟨e.1, ?_, List.mem_singleton.1 h1⟩
                          exact hseen _ (kget_mem hk)
                      · rw [if_neg hd] at hw2
                        rcases List.mem_append.1 hw2 with h1 | h1
                        · exact hdels w2 h1
                        · exact ⟨p.1, hpS, List.mem_singleton.1 h1⟩
                  | none =>
                      simp only [hk] at hw2
                      exact hdels w2 hw2
        · rw [if_neg hg] at hw2
          exact hdels w2 hw2

theorem mem_mergedDedup {merged : List (String × Report)} {e : Write}
    (h : e ∈ mergedDedup merged) :
    ∃ i ∈ merged.map (fun p => p.1), e = (Path.merged i, none) :=
  mergedDedup_fold_sound (merged.map (fun p => p.1)) merged ([], [])
    (fun p hp => List.mem_map_of_mem _ hp)
    (fun q hq => absurd hq (List.not_mem_nil q))
    (fun w hw => absurd hw (List.not_mem_nil w)) e h

theorem collectGo_subset {dist : Dist} {rA : Report} :
    ∀ (l : List (String × Report)) (proc : List String),
      ∀ p ∈ collectGo dist rA l proc, p ∈ l := by
  intro l
  induction l with
  | nil => intro proc p hp; simpa [collectGo] using hp
  | cons e l ih =>
      intro proc p hp
      rw [collectGo] at hp
      by_cases h1 : e.1 ∈ proc
      · rw [if_pos h1] at hp
        exact List.mem_cons_of_mem _ (ih proc p hp)
      · rw [if_neg h1] at hp
        by_cases h2 : e.2.type ≠ rA.type
        · rw [if_pos h2] at hp
          exact List.mem_cons_of_mem _ (ih proc p hp)
        · rw [if_neg h2] at hp
          by_cases h3 : withinRadius dist rA e.2
          · rw [if_pos h3] at hp
            rcases List.mem_cons.1 hp with h4 | h4
            · exact h4 ▸ List.mem_cons_self _ _
            · exact List.mem_cons_of_mem _ (ih _ p h4)
          · rw [if_neg h3] at hp
            exact List.mem_cons_of_mem _ (ih proc p hp)

theorem collectGo_not_mem_proc {dist : Dist} {rA : Report} :
    ∀ (l : List (String × Report)) (proc : List String),
      ∀ p ∈ collectGo dist rA l proc, p.1 ∉ proc := by
  intro l
  induction l with
  | nil => intro proc p hp; simp [collectGo] at hp
  | cons e l ih =>
      intro proc p hp
      rw [collectGo] at hp
      by_cases h1 : e.1 ∈ proc
      · rw [if_pos h1] at hp
        exact ih proc p hp
      · rw [if_neg h1] at hp
        by_cases h2 : e.2.type ≠ rA.type
        · rw [if_pos h2] at hp
          exact ih proc p hp
        · rw [if_neg h2] at hp
          by_cases h3 : withinRadius dist rA e.2
          · rw [if_pos h3] at hp
            rcases List.mem_cons.1 hp with h4 | h4
            · rw [h4]; exact h1
            · have := ih _ p h4
              intro hcon
              exact this (List.mem_append_left _ hcon)
          · rw [if_neg h3] at hp
            exact ih proc p hp

theorem collectGo_ids_nodup {dist : Dist} {rA : Report} :
    ∀ (l : List (String × Report)) (proc : List String),
      ((collectGo dist rA l proc).map (fun p => p.1)).Nodup := by
  intro l
  induction l with
  | nil => intro proc; simp [collectGo]
  | cons e l ih =>
      intro proc
      rw [collectGo]
      by_cases h1 : e.1 ∈ proc
      · rw [if_pos h1]; exact ih proc
      · rw [if_neg h1]
        by_cases h2 : e.2.type ≠ rA.type
        · rw [if_pos h2]; exact ih proc
        · rw [if_neg h2]
          by_cases h3 : withinRadius dist rA e.2
          · rw [if_pos h3]
            rw [List.map_cons, List.nodup_cons]
            constructor
            · intro hcon
              obtain ⟨p, hp, hpe⟩ := List.mem_map.1 hcon
              have := collectGo_not_mem_proc l _ p hp
              exact this (by simp [hpe])
            · exact ih _
          · rw [if_neg h3]; exact ih proc

theorem clustersGo_subset {dist : Dist} :
    ∀ (l : List (String × Report)) (proc : List String),
      ∀ c ∈ clustersGo dist l proc, ∀ p ∈ c, p ∈ l := by
  intro l
  induction l with
  | nil => intro proc c hc; simp [clustersGo] at hc
  | cons e l ih =>
      intro proc c hc p hp
      rw [clustersGo] at hc
      by_cases h1 : e.1 ∈ proc
      · rw [if_pos h1] at hc
        exact List.mem_cons_of_mem _ (ih proc c hc p hp)
      · rw [if_neg h1] at hc
        by_cases h2 : candidate e.2
        · rw [if_pos h2] at hc
          rcases List.mem_cons.1 hc with h3 | h3
          · rw [h3] at hp
            rcases List.mem_cons.1 hp with h4 | h4
            · exact h4 ▸ List.mem_cons_self _ _
            · exact List.mem_cons_of_mem _ (collectGo_subset l _ p h4)
          · exact List.mem_cons_of_mem _ (ih _ c h3 p hp)
        · rw [if_neg h2] at hc
          exact List.mem_cons_of_mem _ (ih proc c hc p hp)

/-- Flattened cluster ids: pairwise distinct across and inside clusters,
and never in the incoming processed set. -/
theorem clustersGo_flat_ids {dist : Dist} :
    ∀ (l : List (String × Report)) (proc : List String),
      (((clustersGo dist l proc).flatMap (fun c => c.map (fun p => p.1))).Nodup) ∧
      (∀ i ∈ (clustersGo dist l proc).flatMap (fun c => c.map (fun p => p.1)),
        i ∉ proc) := by
  intro l
  induction l with
  | nil => intro proc; simp [clustersGo]
  | cons e l ih =>
      intro proc
      rw [clustersGo]
      by_cases h1 : e.1 ∈ proc
      · rw [if_pos h1]; exact ih proc
      · rw [if_neg h1]
        by_cases h2 : candidate e.2
        · rw [if_pos h2]
          set mem := collectGo dist e.2 l (proc ++ [e.1]) with hmem
          set proc2 := (proc ++ [e.1]) ++ mem.map (fun m => m.1) with hproc2
          obtain ⟨ihn, ihp⟩ := ih proc2
          rw [List.flatMap_cons]
          constructor
          · rw [List.nodup_append]
            refine ⟨?_, ihn, ?_⟩
            · rw [List.map_cons, List.nodup_cons]
              constructor
              · intro hcon
                obtain ⟨p, hp, hpe⟩ := List.mem_map.1 hcon
                have := collectGo_not_mem_proc l _ p hp
                exact this (by simp [hpe])
              · exact collectGo_ids_nodup l _
            · intro i hi
              have hnotproc2 := ihp
              intro hcon
              have : i ∉ proc2 := ihp i hcon
              rcases List.mem_cons.1 hi with h4 | h4
              · exact this (by simp [hproc2, h4])
              · exact this (by
                  rw [hproc2]
                  exact List.mem_append_right _ h4)
          · intro i hi
            rcases List.mem_append.1 hi with h4 | h4
            · rcases List.mem_cons.1 h4 with h5 | h5
              · rw [h5]; exact h1
              · obtain ⟨p, hp, hpe⟩ := List.mem_map.1 h5
                have := collectGo_not_mem_proc l _ p hp
                intro hcon
                exact this (List.mem_append_left _ (hpe ▸ hcon))
            · intro hcon
              exact ihp i h4 (by simp [hproc2, hcon])
        · rw [if_neg h2]; exact ih proc

theorem writesTo_nil (p : Path) : writesTo [] p = [] := rfl

theorem writesTo_append (u v : List Write) (p : Path) :
    writesTo (u ++ v) p = writesTo u p ++ writesTo v p := by
  simp [writesTo, List.filter_append]

theorem writesTo_eq_nil (u : List Write) (p : Path) (h : ∀ e ∈ u, e.1 ≠ p) :
    writesTo u p = [] := by
  simp only [writesTo, List.map_eq_nil_iff, List.filter_eq_nil_iff]
  intro e he
  simpa using h e he

theorem mem_memberWrites {c : List (String × Report)} {e : Write}
    (he : e ∈ memberWrites c) :
    ∃ q ∈ c, e = (Path.trash q.1, some q.2) ∨ e = (Path.live q.1, none) := by
  obtain ⟨q, hq, he2⟩ := List.mem_flatMap.1 he
  exact ⟨q, hq, by simpa using he2⟩

theorem writesTo_memberWrites_trash_of_not_mem {c : List (String × Report)}
    {rid : String} (h : rid ∉ c.map (fun p => p.1)) :
    writesTo (memberWrites c) (Path.trash rid) = [] := by
  refine writesTo_eq_nil _ _ ?_
  intro e he
  obtain ⟨q, hq, he2⟩ := mem_memberWrites he
  have hq1 : q.1 ≠ rid := by
    intro hcon
    apply h
    rw [← hcon]
    exact List.mem_map_of_mem _ hq
  rcases he2 with h3 | h3 <;> simp [h3, hq1]

theorem writesTo_memberWrites_live_of_not_mem {c : List (String × Report)}
    {x : String} (h : x ∉ c.map (fun p => p.1)) :
    writesTo (memberWrites c) (Path.live x) = [] := by
  refine writesTo_eq_nil _ _ ?_
  intro e he
  obtain ⟨q, hq, he2⟩ := mem_memberWrites he
  have hq1 : q.1 ≠ x := by
    intro hcon
    apply h
    rw [← hcon]
    exact List.mem_map_of_mem _ hq
  rcases he2 with h3 | h3 <;> simp [h3, hq1]

theorem writesTo_memberWrites_merged {c : List (String × Report)} (x : String) :
    writesTo (memberWrites c) (Path.merged x) = [] := by
  refine writesTo_eq_nil _ _ ?_
  intro e he
  obtain ⟨q, hq, he2⟩ := mem_memberWrites he
  rcases he2 with h3 | h3 <;> simp [h3]

theorem writesTo_memberWrites_trash_of_mem {c : List (String × Report)}
    {rid : String} {rpt : Report} (hnd : (c.map (fun p => p.1)).Nodup)
    (hm : (rid, rpt) ∈ c) :
    writesTo (memberWrites c) (Path.trash rid) = [some rpt] := by
  induction c with
  | nil => simp at hm
  | cons p rest ih =>
      rw [List.map_cons, List.nodup_cons] at hnd
      rw [memberWrites, List.flatMap_cons, ← memberWrites, writesTo_append]
      rcases List.mem_cons.1 hm with h1 | h1
      · have hp1 : p.1 = rid := by rw [← h1]
        have hrest : writesTo (memberWrites rest) (Path.trash rid) = [] := by
          refine writesTo_memberWrites_trash_of_not_mem ?_
          rw [← hp1]
          exact hnd.1
        rw [hrest]
        have hval : p.2 = rpt := by rw [← h1]
        simp [writesTo, hp1, hval]
      · have hp1 : p.1 ≠ rid := by
          intro hcon
          apply hnd.1
          rw [hcon]
          exact List.mem_map_of_mem _ h1
        have hhead : writesTo [(Path.trash p.1, some p.2), (Path.live p.1, none)]
            (Path.trash rid) = [] := by
          simp [writesTo, hp1]
        rw [hhead, List.nil_append]
        exact ih hnd.2 h1

theorem writesTo_memberWrites_live_of_mem {c : List (String × Report)}
    {rid : String} {rpt : Report} (hnd : (c.map (fun p => p.1)).Nodup)
    (hm : (rid, rpt) ∈ c) :
    writesTo (memberWrites c) (Path.live rid) = [none] := by
  induction c with
  | nil => simp at hm
  | cons p rest ih =>
      rw [List.map_cons, List.nodup_cons] at hnd
      rw [memberWrites, List.flatMap_cons, ← memberWrites, writesTo_append]
      rcases List.mem_cons.1 hm with h1 | h1
      · have hp1 : p.1 = rid := by rw [← h1]
        have hrest : writesTo (memberWrites rest) (Path.live rid) = [] := by
          refine writesTo_memberWrites_live_of_not_mem ?_
          rw [← hp1]
          exact hnd.1
        rw [hrest]
        simp [writesTo, hp1]
      · have hp1 : p.1 ≠ rid := by
          intro hcon
          apply hnd.1
          rw [hcon]
          exact List.mem_map_of_mem _ h1
        have hhead : writesTo [(Path.trash p.1, some p.2), (Path.live p.1, none)]
            (Path.live rid) = [] := by
          simp [writesTo, hp1]
        rw [hhead, List.nil_append]
        exact ih hnd.2 h1

theorem clusterWrites_eq (excl : Bool) (live : List (String × Report))
    (key : String) (c : List (String × Report)) :
    clusterWrites excl live key c =
      (if dupFlag excl live c then [] else [(Path.live key, some (synthesize c))]) ++
      [(Path.merged key, some (synthesize c))] ++ memberWrites c := rfl

theorem writesTo_clusterWrites_trash_of_mem {excl : Bool}
    {live c : List (String × Report)} {key rid : String} {rpt : Report}
    (hnd : (c.map (fun p => p.1)).Nodup) (hm : (rid, rpt) ∈ c) :
    writesTo (clusterWrites excl live key c) (Path.trash rid) = [some rpt] := by
  rw [clusterWrites_eq, writesTo_append, writesTo_append,
    writesTo_memberWrites_trash_of_mem hnd hm]
  have h1 : writesTo (if dupFlag excl live c then []
      else [(Path.live key, some (synthesize c))]) (Path.trash rid) = [] := by
    cases dupFlag excl live c <;> simp [writesTo]
  have h2 : writesTo [(Path.merged key, some (synthesize c))] (Path.trash rid) = [] := by
    simp [writesTo]
  rw [h1, h2]
  rfl

theorem writesTo_clusterWrites_trash_of_not_mem {excl : Bool}
    {live c : List (String × Report)} {key rid : String}
    (h : rid ∉ c.map (fun p => p.1)) :
    writesTo (clusterWrites excl live key c) (Path.trash rid) = [] := by
  rw [clusterWrites_eq, writesTo_append, writesTo_append,
    writesTo_memberWrites_trash_of_not_mem h]
  have h1 : writesTo (if dupFlag excl live c then []
      else [(Path.live key, some (synthesize c))]) (Path.trash rid) = [] := by
    cases dupFlag excl live c <;> simp [writesTo]
  have h2 : writesTo [(Path.merged key, some (synthesize c))] (Path.trash rid) = [] := by
    simp [writesTo]
  rw [h1, h2]
  rfl

theorem writesTo_clusterWrites_live_of_mem {excl : Bool}
    {live c : List (String × Report)} {key rid : String} {rpt : Report}
    (hnd : (c.map (fun p => p.1)).Nodup) (hm : (rid, rpt) ∈ c) (hk : key ≠ rid) :
    writesTo (clusterWrites excl live key c) (Path.live rid) = [none] := by
  rw [clusterWrites_eq, writesTo_append, writesTo_append,
    writesTo_memberWrites_live_of_mem hnd hm]
  have h1 : writesTo (if dupFlag excl live c then []
      else [(Path.live key, some (synthesize c))]) (Path.live rid) = [] := by
    cases dupFlag excl live c <;> simp [writesTo, hk]
  have h2 : writesTo [(Path.merged key, some (synthesize c))] (Path.live rid) = [] := by
    simp [writesTo]
  rw [h1, h2]
  rfl

theorem writesTo_clusterWrites_live_of_not_mem {excl : Bool}
    {live c : List (String × Report)} {key x : String}
    (h : x ∉ c.map (fun p => p.1)) (hk : key ≠ x) :
    writesTo (clusterWrites excl live key c) (Path.live x) = [] := by
  rw [clusterWrites_eq, writesTo_append, writesTo_append,
    writesTo_memberWrites_live_of_not_mem h]
  have h1 : writesTo (if dupFlag excl live c then []
      else [(Path.live key, some (synthesize c))]) (Path.live x) = [] := by
    cases dupFlag excl live c <;> simp [writesTo, hk]
  have h2 : writesTo [(Path.merged key, some (synthesize c))] (Path.live x) = [] := by
    simp [writesTo]
  rw [h1, h2]
  rfl

theorem writesTo_clusterWrites_live_key {excl : Bool}
    {live c : List (String × Report)} {key : String}
    (h : key ∉ c.map (fun p => p.1)) :
    writesTo (clusterWrites excl live key c) (Path.live key) =
      if dupFlag excl live c then [] else [some (synthesize c)] := by
  rw [clusterWrites_eq, writesTo_append, writesTo_append,
    writesTo_memberWrites_live_of_not_mem h]
  have h2 : writesTo [(Path.merged key, some (synthesize c))] (Path.live key) = [] := by
    simp [writesTo]
  rw [h2]
  cases dupFlag excl live c <;> simp [writesTo]

theorem writesTo_clusterWrites_merged_key {excl : Bool}
    {live c : List (String × Report)} {key : String} :
    writesTo (clusterWrites excl live key c) (Path.merged key) =
      [some (synthesize c)] := by
  rw [clusterWrites_eq, writesTo_append, writesTo_append,
    writesTo_memberWrites_merged]
  have h1 : writesTo (if dupFlag excl live c then []
      else [(Path.live key, some (synthesize c))]) (Path.merged key) = [] := by
    cases dupFlag excl live c <;> simp [writesTo]
  rw [h1]
  simp [writesTo]

theorem writesTo_clusterWrites_merged_other {excl : Bool}
    {live c : List (String × Report)} {key x : String} (h : x ≠ key) :
    writesTo (clusterWrites excl live key c) (Path.merged x) = [] := by
  rw [clusterWrites_eq, writesTo_append, writesTo_append,
    writesTo_memberWrites_merged]
  have h1 : writesTo (if dupFlag excl live c then []
      else [(Path.live key, some (synthesize c))]) (Path.merged x) = [] := by
    cases dupFlag excl live c <;> simp [writesTo]
  have h3 : key ≠ x := fun hh => h hh.symm
  have h2 : writesTo [(Path.merged key, some (synthesize c))] (Path.merged x) = [] := by
    simp [writesTo, h3]
  rw [h1, h2]
  rfl

theorem mergeGo_nil (excl : Bool) (live : List (String × Report))
    (keys : ℕ → String) (n : ℕ) : mergeGo excl live keys n [] = [] := rfl

theorem mergeGo_cons (excl : Bool) (live : List (String × Report))
    (keys : ℕ → String) (n : ℕ) (c : List (String × Report))
    (cs : List (List (String × Report))) :
    mergeGo excl live keys n (c :: cs) =
      clusterWrites excl live (keys n) c ++ mergeGo excl live keys (n + 1) cs := rfl

theorem mergeGo_trash_of_not_mem {excl : Bool} {live : List (String × Report)}
    {keys : ℕ → String} {rid : String} :
    ∀ (cs : List (List (String × Report))) (n : ℕ), rid ∉ flatIds cs →
      writesTo (mergeGo excl live keys n cs) (Path.trash rid) = [] := by
  intro cs
  induction cs with
  | nil => intro n _; rfl
  | cons c cs ih =>
      intro n h
      rw [mergeGo_cons, writesTo_append]
      have h1 : rid ∉ c.map (fun p => p.1) := fun hc =>
        h (List.mem_flatMap.2 ⟨c, List.mem_cons_self _ _, hc⟩)
      have h2 : rid ∉ flatIds cs := by
        intro hc
        obtain ⟨c2, hc2, hc3⟩ := List.mem_flatMap.1 hc
        exact h (List.mem_flatMap.2 ⟨c2, List.mem_cons_of_mem _ hc2, hc3⟩)
      rw [writesTo_clusterWrites_trash_of_not_mem h1, ih (n + 1) h2]
      rfl

theorem mergeGo_live_of_not_mem {excl : Bool} {live : List (String × Report)}
    {keys : ℕ → String} {x : String} :
    ∀ (cs : List (List (String × Report))) (n : ℕ), x ∉ flatIds cs →
      (∀ m, keys m ≠ x) →
      writesTo (mergeGo excl live keys n cs) (Path.live x) = [] := by
  intro cs
  induction cs with
  | nil => intro n _ _; rfl
  | cons c cs ih =>
      intro n h hk
      rw [mergeGo_cons, writesTo_append]
      have h1 : x ∉ c.map (fun p => p.1) := fun hc =>
        h (List.mem_flatMap.2 ⟨c, List.mem_cons_self _ _, hc⟩)
      have h2 : x ∉ flatIds cs := by
        intro hc
        obtain ⟨c2, hc2, hc3⟩ := List.mem_flatMap.1 hc
        exact h (List.mem_flatMap.2 ⟨c2, List.mem_cons_of_mem _ hc2, hc3⟩)
      rw [writesTo_clusterWrites_live_of_not_mem h1 (hk n), ih (n + 1) h2 hk]
      rfl

theorem mergeGo_merged_of_fresh {excl : Bool} {live : List (String × Report)}
    {keys : ℕ → String} {x : String} :
    ∀ (cs : List (List (String × Report))) (n : ℕ), (∀ m, n ≤ m → keys m ≠ x) →
      writesTo (mergeGo excl live keys n cs) (Path.merged x) = [] := by
  intro cs
  induction cs with
  | nil => intro n _; rfl
  | cons c cs ih =>
      intro n hk
      rw [mergeGo_cons, writesTo_append,
        writesTo_clusterWrites_merged_other (fun hh => hk n (Nat.le_refl n) hh.symm),
        ih (n + 1) (fun m hm => hk m (Nat.le_of_succ_le hm))]
      rfl

theorem mergeGo_trash_of_mem {excl : Bool} {live : List (String × Report)}
    {keys : ℕ → String} {rid : String} {rpt : Report} :
    ∀ (cs : List (List (String × Report))) (n : ℕ), (flatIds cs).Nodup →
      ∀ c ∈ cs, (rid, rpt) ∈ c →
      writesTo (mergeGo excl live keys n cs) (Path.trash rid) = [some rpt] := by
  intro cs
  induction cs with
  | nil => intro n _ c hc; simp at hc
  | cons c0 cs ih =>
      intro n hnd c hc hm
      have hflat : flatIds (c0 :: cs) = c0.map (fun p => p.1) ++ flatIds cs := by
        simp [flatIds]
      rw [hflat, List.nodup_append] at hnd
      obtain ⟨hnd0, hndr, hdisj⟩ := hnd
      rw [mergeGo_cons, writesTo_append]
      rcases List.mem_cons.1 hc with h1 | h1
      · subst h1
        have hrid : rid ∈ c.map (fun p => p.1) := List.mem_map_of_mem _ hm
        have h2 : rid ∉ flatIds cs := hdisj hrid
        rw [writesTo_clusterWrites_trash_of_mem hnd0 hm,
          mergeGo_trash_of_not_mem cs (n + 1) h2]
        rfl
      · have hrid : rid ∈ flatIds cs :=
          List.mem_flatMap.2 ⟨c, h1, List.mem_map_of_mem _ hm⟩
        have h2 : rid ∉ c0.map (fun p => p.1) := fun hc2 => hdisj hc2 hrid
        rw [writesTo_clusterWrites_trash_of_not_mem h2, List.nil_append]
        exact ih (n + 1) hndr c h1 hm

theorem mergeGo_live_of_mem {excl : Bool} {live : List (String × Report)}
    {keys : ℕ → String} {rid : String} {rpt : Report} :
    ∀ (cs : List (List (String × Report))) (n : ℕ), (flatIds cs).Nodup →
      (∀ m, keys m ≠ rid) →
      ∀ c ∈ cs, (rid, rpt) ∈ c →
      writesTo (mergeGo excl live keys n cs) (Path.live rid) = [none] := by
  intro cs
  induction cs with
  | nil => intro n _ _ c hc; simp at hc
  | cons c0 cs ih =>
      intro n hnd hk c hc hm
      have hflat : flatIds (c0 :: cs) = c0.map (fun p => p.1) ++ flatIds cs := by
        simp [flatIds]
      rw [hflat, List.nodup_append] at hnd
      obtain ⟨hnd0, hndr, hdisj⟩ := hnd
      rw [mergeGo_cons, writesTo_append]
      rcases List.mem_cons.1 hc with h1 | h1
      · subst h1
        have hrid : rid ∈ c.map (fun p => p.1) := List.mem_map_of_mem _ hm
        have h2 : rid ∉ flatIds cs := hdisj hrid
        rw [writesTo_clusterWrites_live_of_mem hnd0 hm (hk n),
          mergeGo_live_of_not_mem cs (n + 1) h2 hk]
        rfl
      · have hrid : rid ∈ flatIds cs :=
          List.mem_flatMap.2 ⟨c, h1, List.mem_map_of_mem _ hm⟩
        have h2 : rid ∉ c0.map (fun p => p.1) := fun hc2 => hdisj hc2 hrid
        rw [writesTo_clusterWrites_live_of_not_mem h2 (hk n), List.nil_append]
        exact ih (n + 1) hndr hk c h1 hm

theorem mergeGo_merged_at {excl : Bool} {live : List (String × Report)}
    {keys : ℕ → String} (hinj : ∀ i j, keys i = keys j → i = j) :
    ∀ (cs : List (List (String × Report))) (n j : ℕ) (c : List (String × Report)),
      cs.get? j = some c →
      writesTo (mergeGo excl live keys n cs) (Path.merged (keys (n + j))) =
        [some (synthesize c)] := by
  intro cs
  induction cs with
  | nil => intro n j c hc; simp at hc
  | cons c0 cs ih =>
      intro n j c hc
      rw [mergeGo_cons, writesTo_append]
      cases j with
      | zero =>
          have hc0 : c0 = c := by simpa using hc
          subst hc0
          rw [Nat.add_zero, writesTo_clusterWrites_merged_key]
          have hfresh : writesTo (mergeGo excl live keys (n + 1) cs)
              (Path.merged (keys n)) = [] := by
            refine mergeGo_merged_of_fresh cs (n + 1) ?_
            intro m hm hcon
            have := hinj _ _ hcon
            omega
          rw [hfresh]
          rfl
      | succ j2 =>
          have hc2 : cs.get? j2 = some c := by simpa using hc
          have hne : keys (n + (j2 + 1)) ≠ keys n := by
            intro hh
            have := hinj _ _ hh
            omega
          rw [writesTo_clusterWrites_merged_other hne, List.nil_append]
          have : n + (j2 + 1) = (n + 1) + j2 := by omega
          rw [this]
          exact ih (n + 1) j2 c hc2

theorem writesTo_of_shape {u : List Write} {p : Path}
    (hshape : ∀ e ∈ u, e.1 ≠ p) : writesTo u p = [] :=
  writesTo_eq_nil u p hshape

theorem writesTo_liveSweep_nonlive {now : ℚ} {live merged : List (String × Report)}
    {p : Path} (h : ∀ i, p ≠ Path.live i) :
    writesTo (liveSweep now live merged) p = [] := by
  refine writesTo_eq_nil _ _ ?_
  intro e he
  obtain ⟨q, _, he2⟩ := mem_liveSweep he
  rw [he2]
  exact fun hcon => h q.1 hcon.symm

theorem writesTo_liveSweep_live_of_not_mem {now : ℚ}
    {live merged : List (String × Report)} {id : String}
    (h : id ∉ live.map (fun p => p.1)) :
    writesTo (liveSweep now live merged) (Path.live id) = [] := by
  refine writesTo_eq_nil _ _ ?_
  intro e he
  obtain ⟨q, hq, he2⟩ := mem_liveSweep he
  have : q.1 ≠ id := fun hcon => h (by rw [← hcon]; exact List.mem_map_of_mem _ hq)
  rw [he2]
  simpa using this

theorem writesTo_trashSweep_nontrash {now : ℚ} {trash : List (String × Report)}
    {p : Path} (h : ∀ i, p ≠ Path.trash i) :
    writesTo (trashSweep now trash) p = [] := by
  refine writesTo_eq_nil _ _ ?_
  intro e he
  obtain ⟨q, _, he2⟩ := mem_trashSweep he
  rw [he2]
  exact fun hcon => h q.1 hcon.symm

theorem writesTo_trashSweep_trash_of_not_mem {now : ℚ}
    {trash : List (String × Report)} {id : String}
    (h : id ∉ trash.map (fun p => p.1)) :
    writesTo (trashSweep now trash) (Path.trash id) = [] := by
  refine writesTo_eq_nil _ _ ?_
  intro e he
  obtain ⟨q, hq, he2⟩ := mem_trashSweep he
  have : q.1 ≠ id := fun hcon => h (by rw [← hcon]; exact List.mem_map_of_mem _ hq)
  rw [he2]
  simpa using this

theorem writesTo_userSweep_nonuser {now : ℚ} {users : List (String × Option JVal)}
    {p : Path} (h : ∀ i, p ≠ Path.userLast i) :
    writesTo (userSweep now users) p = [] := by
  refine writesTo_eq_nil _ _ ?_
  intro e he
  obtain ⟨q, _, he2⟩ := mem_userSweep he
  rw [he2]
  exact fun hcon => h q.1 hcon.symm

theorem writesTo_mergedSweep_nonmerged {now : ℚ} {merged : List (String × Report)}
    {p : Path} (h : ∀ i, p ≠ Path.merged i) :
    writesTo (mergedSweep now merged) p = [] := by
  refine writesTo_eq_nil _ _ ?_
  intro e he
  obtain ⟨q, _, he2⟩ := mem_mergedSweep he
  rw [he2]
  exact fun hcon => h q.1 hcon.symm

theorem writesTo_mergedSweep_merged_of_not_mem {now : ℚ}
    {merged : List (String × Report)} {id : String}
    (h : id ∉ merged.map (fun p => p.1)) :
    writesTo (mergedSweep now merged) (Path.merged id) = [] := by
  refine writesTo_eq_nil _ _ ?_
  intro e he
  obtain ⟨q, hq, he2⟩ := mem_mergedSweep he
  have : q.1 ≠ id := fun hcon => h (by rw [← hcon]; exact List.mem_map_of_mem _ hq)
  rw [he2]
  simpa using this

theorem writesTo_mergedDedup_nonmerged {merged : List (String × Report)}
    {p : Path} (h : ∀ i, p ≠ Path.merged i) :
    writesTo (mergedDedup merged) p = [] := by
  refine writesTo_eq_nil _ _ ?_
  intro e he
  obtain ⟨i, _, he2⟩ := mem_mergedDedup he
  rw [he2]
  exact fun hcon => h i hcon.symm

theorem writesTo_mergedDedup_merged_of_not_mem {merged : List (String × Report)}
    {id : String} (h : id ∉ merged.map (fun p => p.1)) :
    writesTo (mergedDedup merged) (Path.merged id) = [] := by
  refine writesTo_eq_nil _ _ ?_
  intro e he
  obtain ⟨i, hi, he2⟩ := mem_mergedDedup he
  have : i ≠ id := fun hcon => h (hcon ▸ hi)
  rw [he2]
  simpa using this

theorem writesTo_liveVsMerged_shape {live merged : List (String × Report)}
    {p : Path} (h1 : ∀ i ∈ live.map (fun q => q.1), p ≠ Path.live i)
    (h2 : ∀ i ∈ merged.map (fun q => q.1), p ≠ Path.merged i) :
    writesTo (liveVsMerged live merged) p = [] := by
  refine writesTo_eq_nil _ _ ?_
  intro e he
  rcases mem_liveVsMerged he with ⟨q, hq, he2⟩ | ⟨q, hq, he2⟩
  · rw [he2]
    exact fun hcon => h1 q.1 (List.mem_map_of_mem _ hq) hcon.symm
  · rw [he2]
    exact fun hcon => h2 q.1 (List.mem_map_of_mem _ hq) hcon.symm

theorem writesTo_restoration_shape {now : ℚ} {live merged : List (String × Report)}
    {p : Path} (h : ∀ i ∈ merged.map (fun q => q.1), p ≠ Path.live i) :
    writesTo (restoration now live merged) p = [] := by
  refine writesTo_eq_nil _ _ ?_
  intro e he
  obtain ⟨q, hq, he2⟩ := mem_restoration he
  rw [he2]
  exact fun hcon => h q.1 (List.mem_map_of_mem _ hq) hcon.symm

theorem restoration_cons_pos {now : ℚ} {live rest : List (String × Report)}
    {p : String × Report} {q : ℚ} (hts : numTs p.2.timestamp = some q)
    (hc : q ≠ 0 ∧ (kget live p.1).isNone = true ∧ now - q ≤ MAX_AGE) :
    restoration now live (p :: rest) =
      (Path.live p.1, some p.2) :: restoration now live rest := by
  rw [restoration, List.filterMap_cons]
  simp only [hts]
  rw [if_pos hc]
  rfl

theorem restoration_cons_neg {now : ℚ} {live rest : List (String × Report)}
    {p : String × Report} {q : ℚ} (hts : numTs p.2.timestamp = some q)
    (hc : ¬ (q ≠ 0 ∧ (kget live p.1).isNone = true ∧ now - q ≤ MAX_AGE)) :
    restoration now live (p :: rest) = restoration now live rest := by
  rw [restoration, List.filterMap_cons]
  simp only [hts]
  rw [if_neg hc]
  rfl

theorem restoration_cons_none {now : ℚ} {live rest : List (String × Report)}
    {p : String × Report} (hts : numTs p.2.timestamp = none) :
    restoration now live (p :: rest) = restoration now live rest := by
  rw [restoration, List.filterMap_cons]
  simp only [hts]
  rfl

/-- The positive restoration fact: for a merged record meeting the
restoration conditions, the pass emits exactly one Live write carrying the
record unmodified. -/
theorem writesTo_restoration_at {now : ℚ} {live merged : List (String × Report)}
    {id : String} {rpt : Report} {q : ℚ}
    (hnd : (merged.map (fun p => p.1)).Nodup) (hm : (id, rpt) ∈ merged)
    (hts : numTs rpt.timestamp = some q) (hq0 : q ≠ 0)
    (hlive : kget live id = none) (hage : now - q ≤ MAX_AGE) :
    writesTo (restoration now live merged) (Path.live id) = [some rpt] := by
  induction merged with
  | nil => simp at hm
  | cons p rest ih =>
      rw [List.map_cons, List.nodup_cons] at hnd
      rcases List.mem_cons.1 hm with h1 | h1
      · have hp : p = (id, rpt) := h1.symm
        subst hp
        rw [restoration_cons_pos hts ⟨hq0, by rw [hlive]; rfl, hage⟩]
        have hrest : writesTo (restoration now live rest) (Path.live id) = [] := by
          refine writesTo_eq_nil _ _ ?_
          intro e he
          obtain ⟨q2, hq2, he2⟩ := mem_restoration he
          have hne : q2.1 ≠ id := by
            intro hcon
            have hmm : q2.1 ∈ List.map (fun p => p.1) rest :=
              List.mem_map_of_mem _ hq2
            rw [hcon] at hmm
            exact hnd.1 hmm
          rw [he2]
          simpa using hne
        have hcons : writesTo ((Path.live id, some rpt) ::
            restoration now live rest) (Path.live id) =
            some rpt :: writesTo (restoration now live rest) (Path.live id) := by
          simp [writesTo, List.filter_cons]
        rw [hcons, hrest]
      · have hne : p.1 ≠ id := by
          intro hcon
          have hmm : (id, rpt).1 ∈ List.map (fun p => p.1) rest :=
            List.mem_map_of_mem _ h1
          rw [← hcon] at hmm
          exact hnd.1 hmm
        have htail := ih hnd.2 h1
        cases hn : numTs p.2.timestamp with
        | none => rw [restoration_cons_none hn]; exact htail
        | some q2 =>
            by_cases hc : q2 ≠ 0 ∧ (kget live p.1).isNone = true ∧ now - q2 ≤ MAX_AGE
            · rw [restoration_cons_pos hn hc]
              have hcons : writesTo ((Path.live p.1, some p.2) ::
                  restoration now live rest) (Path.live id) =
                  writesTo (restoration now live rest) (Path.live id) := by
                simp [writesTo, List.filter_cons, hne]
              rw [hcons]
              exact htail
            · rw [restoration_cons_neg hn hc]
              exact htail

theorem writesTo_computeUpdates (excl : Bool) (dist : Dist) (keys : ℕ → String)
    (now : ℚ) (s : Store) (p : Path) :
    writesTo (computeUpdates excl dist keys now s) p =
      writesTo (liveSweep now s.live s.merged) p ++
      writesTo (trashSweep now s.trash) p ++
      writesTo (userSweep now s.users) p ++
      writesTo (mergedSweep now s.merged) p ++
      writesTo (mergedDedup s.merged) p ++
      writesTo (liveVsMerged s.live s.merged) p ++
      writesTo (restoration now s.live s.merged) p ++
      writesTo (mergePass excl dist keys s.live) p := by
  rw [computeUpdates]
  repeat rw [writesTo_append]

theorem flatIds_filter_sublist (f : List (String × Report) → Bool) :
    ∀ cs : List (List (String × Report)),
      List.Sublist (flatIds (cs.filter f)) (flatIds cs) := by
  intro cs
  induction cs with
  | nil => simp [flatIds]
  | cons c cs ih =>
      rw [List.filter_cons]
      by_cases h : f c
      · rw [if_pos h]
        have : flatIds (c :: cs.filter f) =
            c.map (fun p => p.1) ++ flatIds (cs.filter f) := by simp [flatIds]
        rw [this]
        have h2 : flatIds (c :: cs) = c.map (fun p => p.1) ++ flatIds cs := by
          simp [flatIds]
        rw [h2]
        exact List.Sublist.append_left ih _
      · rw [if_neg h]
        have h2 : flatIds (c :: cs) = c.map (fun p => p.1) ++ flatIds cs := by
          simp [flatIds]
        rw [h2]
        exact ih.trans (List.sublist_append_right _ _)

theorem bigClusters_flat_nodup (dist : Dist) (live : List (String × Report)) :
    (flatIds (bigClusters dist live)).Nodup := by
  have h1 := (@clustersGo_flat_ids dist live []).1
  have h2 := flatIds_filter_sublist (fun c => decide (2 ≤ c.length))
    (clustersGo dist live [])
  exact h2.nodup h1

theorem bigClusters_mem_live {dist : Dist} {live c : List (String × Report)}
    (hc : c ∈ bigClusters dist live) : ∀ p ∈ c, p ∈ live := by
  have : c ∈ clustersGo dist live [] := List.mem_of_mem_filter hc
  exact clustersGo_subset live [] c this

theorem bigClusters_ids_sub {dist : Dist} {live : List (String × Report)}
    {i : String} (hi : i ∈ flatIds (bigClusters dist live)) :
    i ∈ live.map (fun p => p.1) := by
  obtain ⟨c, hc, hi2⟩ := List.mem_flatMap.1 hi
  obtain ⟨p, hp, hpe⟩ := List.mem_map.1 hi2
  rw [← hpe]
  exact List.mem_map_of_mem _ (bigClusters_mem_live hc p hp)

theorem writesTo_mergePass_live_of_not_mem {excl : Bool} {dist : Dist}
    {keys : ℕ → String} {live : List (String × Report)} {x : String}
    (h : x ∉ live.map (fun p => p.1)) (hk : ∀ m, keys m ≠ x) :
    writesTo (mergePass excl dist keys live) (Path.live x) = [] := by
  rw [mergePass]
  refine mergeGo_live_of_not_mem _ 0 ?_ hk
  intro hc
  exact h (bigClusters_ids_sub hc)

theorem writesTo_mergePass_trash_of_not_mem {excl : Bool} {dist : Dist}
    {keys : ℕ → String} {live : List (String × Report)} {x : String}
    (h : x ∉ live.map (fun p => p.1)) :
    writesTo (mergePass excl dist keys live) (Path.trash x) = [] := by
  rw [mergePass]
  refine mergeGo_trash_of_not_mem _ 0 ?_
  intro hc
  exact h (bigClusters_ids_sub hc)

theorem writesTo_mergePass_user {excl : Bool} {dist : Dist}
    {keys : ℕ → String} {live : List (String × Report)} {x : String} :
    writesTo (mergePass excl dist keys live) (Path.userLast x) = [] := by
  rw [mergePass]
  generalize 0 = n
  generalize bigClusters dist live = cs
  induction cs generalizing n with
  | nil => rfl
  | cons c cs ih =>
      rw [mergeGo_cons, writesTo_append, ih]
      have : writesTo (clusterWrites excl live (keys n) c) (Path.userLast x) = [] := by
        rw [clusterWrites_eq, writesTo_append, writesTo_append]
        have h1 : writesTo (if dupFlag excl live c then []
            else [(Path.live (keys n), some (synthesize c))]) (Path.userLast x) = [] := by
          cases dupFlag excl live c <;> simp [writesTo]
        have h2 : writesTo [(Path.merged (keys n), some (synthesize c))]
            (Path.userLast x) = [] := by simp [writesTo]
        have h3 : writesTo (memberWrites c) (Path.userLast x) = [] := by
          refine writesTo_eq_nil _ _ ?_
          intro e he
          obtain ⟨q, _, he2⟩ := mem_memberWrites he
          rcases he2 with h4 | h4 <;> simp [h4]
        rw [h1, h2, h3]
        rfl
      rw [this]
      rfl

theorem kget_isSome_of_mem {α β : Type} [DecidableEq α] {l : List (α × β)} {k : α}
    (h : k ∈ l.map (fun p => p.1)) : (kget l k).isSome := by
  induction l with
  | nil => simp at h
  | cons e l ih =>
      obtain ⟨a, b⟩ := e
      rw [kget_cons]
      by_cases h2 : a = k
      · simp [h2]
      · rw [if_neg h2]
        apply ih
        rw [List.map_cons] at h
        rcases List.mem_cons.1 h with h3 | h3
        · exact absurd h3.symm h2
        · exact h3

theorem not_mem_of_kget_eq_none {α β : Type} [DecidableEq α] {l : List (α × β)}
    {k : α} (h : kget l k = none) : k ∉ l.map (fun p => p.1) := by
  intro hc
  have := kget_isSome_of_mem hc
  rw [h] at this
  simp at this

/-- With pairwise-distinct keys, an association-list member is determined
by its key. -/
theorem mem_assoc_unique {α β : Type} [DecidableEq α] {l : List (α × β)}
    (hnd : (l.map (fun p => p.1)).Nodup) {k : α} {a b : β}
    (ha : (k, a) ∈ l) (hb : (k, b) ∈ l) : a = b := by
  induction l with
  | nil => simp at ha
  | cons e l ih =>
      rw [List.map_cons, List.nodup_cons] at hnd
      rcases List.mem_cons.1 ha with h1 | h1 <;>
        rcases List.mem_cons.1 hb with h2 | h2
      · have h3 : (k, a) = (k, b) := h1.trans h2.symm
        simpa using h3
      · exfalso
        apply hnd.1
        have : e.1 = k := by rw [← h1]
        rw [this]
        exact List.mem_map_of_mem _ h2
      · exfalso
        apply hnd.1
        have : e.1 = k := by rw [← h2]
        rw [this]
        exact List.mem_map_of_mem _ h1
      · exact ih hnd.2 h1 h2

/-- Claim C9 (corrected): the restoration guarantee holds for every Merged
record with a truthy (nonzero) numeric timestamp: if its id has no Live
record and `now - timestamp ≤ MAX_AGE`, the run writes the record back
into Live unmodified.  (The unamended claim fails for a numeric timestamp
of exactly `0`, which the JS truthiness guard `!rpt?.timestamp` skips; see
the counterexample.) -/
theorem C9_restoration_amended (dist : Dist) (keys : ℕ → String) (now : ℚ)
    (s : Store) (id : String) (rpt : Report) (q : ℚ)
    (hnd : (s.merged.map (fun p => p.1)).Nodup)
    (hm : (id, rpt) ∈ s.merged)
    (hts : numTs rpt.timestamp = some q) (hq0 : q ≠ 0)
    (hlive : kget s.live id = none) (hage : now - q ≤ MAX_AGE)
    (hk : ∀ m, keys m ≠ id) :
    kget (runOnStore false dist keys now s).live id = some rpt := by
  have hnotlive : id ∉ s.live.map (fun p => p.1) := not_mem_of_kget_eq_none hlive
  rw [runOnStore, kget_applyStore_live, lastVal_eq_getLastD, writesTo_computeUpdates]
  rw [writesTo_liveSweep_live_of_not_mem hnotlive]
  rw [writesTo_trashSweep_nontrash (by intro i; simp)]
  rw [writesTo_userSweep_nonuser (by intro i; simp)]
  rw [writesTo_mergedSweep_nonmerged (by intro i; simp)]
  rw [writesTo_mergedDedup_nonmerged (by intro i; simp)]
  rw [writesTo_liveVsMerged_shape
    (by
      intro i hi hcon
      apply hnotlive
      have hii : id = i := by injection hcon
      rw [hii]
      exact hi)
    (by intro i _ hcon; simp at hcon)]
  rw [writesTo_restoration_at hnd hm hts hq0 hlive hage]
  rw [writesTo_mergePass_live_of_not_mem hnotlive hk]
  simp

/-- Witness for C9: a concrete store on which the amended restoration
theorem fires. -/
theorem C9_restoration_amended_witness :
    kget (runOnStore false (fun _ _ _ _ => 0) (fun _ => "k") 100
      { merged := [("m", { timestamp := some (JVal.num 10) })] }).live "m" =
      some { timestamp := some (JVal.num 10) } := by
  refine C9_restoration_amended (fun _ _ _ _ => 0) (fun _ => "k") 100
    { merged := [("m", { timestamp := some (JVal.num 10) })] }
    "m" { timestamp := some (JVal.num 10) } 10 (by decide) (by decide) (by decide)
    (by decide) (by decide) (by decide) (fun _ => by show "k" ≠ "m"; decide)

/-- Counterexample for C9 as stated: a Merged record with the numeric
timestamp `0`, absent from Live and within `MAX_AGE` of `now = 100`, is
not restored — the truthiness guard skips it, so the run leaves Live
empty at its id. -/
theorem C9_restoration_counterexample :
    (numTs (some (JVal.num 0)) = some 0) ∧
    ((100 : ℚ) - 0 ≤ MAX_AGE) ∧
    kget (runOnStore false (fun _ _ _ _ => 0) (fun _ => "k") 100
      { merged := [("m", { timestamp := some (JVal.num 0) })] }).live "m" = none := by
  refine ⟨by decide, by decide, by decide⟩

/-- Claim C2 (corrected): with the amendment that the timestamp must be a
truthy (nonzero) number, the Live retention sweep marks a record deleted
iff `now - timestamp > MAX_AGE` and the exact timestamp value is absent
from the numeric Merged timestamps; and a Live record with a missing or
non-numeric timestamp is never touched by the sweep.  (As stated the claim
fails at the numeric timestamp `0`: old and unprotected, yet skipped by
the JS truthiness guard; see the counterexample.) -/
theorem C2_retention_amended (now : ℚ) (live merged : List (String × Report))
    (hnd : (live.map (fun p => p.1)).Nodup) :
    (∀ id r q, (id, r) ∈ live → r.timestamp = some (JVal.num q) → q ≠ 0 →
      (((Path.live id, (none : Option Report)) ∈ liveSweep now live merged) ↔
        (now - q > MAX_AGE ∧ q ∉ mergedTimestamps merged))) ∧
    (∀ id r, (id, r) ∈ live → numTs r.timestamp = none →
      ∀ w ∈ liveSweep now live merged, w.1 ≠ Path.live id) := by
  constructor
  · intro id r q hm hts hq0
    constructor
    · intro hin
      obtain ⟨p, hp, he⟩ := List.mem_filterMap.1 hin
      cases hn : numTs p.2.timestamp with
      | none => simp [hn] at he
      | some q2 =>
          simp only [hn] at he
          by_cases hc : q2 ≠ 0 ∧ now - q2 > MAX_AGE ∧ q2 ∉ mergedTimestamps merged
          · rw [if_pos hc] at he
            have hid : p.1 = id := by
              have := Option.some_inj.1 he
              injection this with h1 _
              injection h1
            have hp2 : (id, p.2) ∈ live := by
              have : p = (id, p.2) := by
                rw [← hid]
              rw [← this]
              exact hp
            have hreq : p.2 = r := mem_assoc_unique hnd hp2 hm
            have hq2q : q2 = q := by
              have : numTs r.timestamp = some q := by rw [hts]; rfl
              rw [hreq, this] at hn
              exact (Option.some_inj.1 hn).symm
            rw [hq2q] at hc
            exact ⟨hc.2.1, hc.2.2⟩
          · rw [if_neg hc] at he
            simp at he
    · intro hcond
      refine List.mem_filterMap.2 ⟨(id, r), hm, ?_⟩
      have hn : numTs (id, r).2.timestamp = some q := by
        show numTs r.timestamp = some q
        rw [hts]
        rfl
      simp only [hn]
      rw [if_pos ⟨hq0, hcond.1, hcond.2⟩]
  · intro id r hm hts w hw hcon
    obtain ⟨p, hp, he⟩ := List.mem_filterMap.1 hw
    cases hn : numTs p.2.timestamp with
    | none => simp [hn] at he
    | some q2 =>
        simp only [hn] at he
        by_cases hc : q2 ≠ 0 ∧ now - q2 > MAX_AGE ∧ q2 ∉ mergedTimestamps merged
        · rw [if_pos hc] at he
          have hw1 : w.1 = Path.live p.1 := by
            rw [← Option.some_inj.1 he]
          rw [hw1] at hcon
          have hid : p.1 = id := by injection hcon
          have hp2 : (id, p.2) ∈ live := by
            have hpe : p = (id, p.2) := by rw [← hid]
            rw [← hpe]
            exact hp
          have hreq : p.2 = r := mem_assoc_unique hnd hp2 hm
          rw [hreq] at hn
          rw [hts] at hn
          simp at hn
        · rw [if_neg hc] at he
          simp at he

/-- Witness for C2: on a concrete snapshot, the amended theorem yields the
eviction of an old unprotected record. -/
theorem C2_retention_amended_witness :
    (Path.live "a", (none : Option Report)) ∈
      liveSweep 200000 [("a", { timestamp := some (JVal.num 10) })] [] :=
  ((C2_retention_amended 200000 [("a", { timestamp := some (JVal.num 10) })] []
    (by decide)).1 "a" { timestamp := some (JVal.num 10) } 10 (by decide) rfl
    (by decide)).2 ⟨by decide, by decide⟩

/-- Counterexample for C2 as stated: the numeric timestamp `0` is old
(`now = 200000`) and unprotected, so the claim requires eviction, but the
sweep emits nothing. -/
theorem C2_retention_counterexample :
    ((200000 : ℚ) - 0 > MAX_AGE) ∧ ((0 : ℚ) ∉ mergedTimestamps []) ∧
    liveSweep 200000 [("a", { timestamp := some (JVal.num 0) })] [] = [] :=
  ⟨by decide, by decide, by decide⟩

theorem firstLongest_single (q : String × Report) : firstLongest [q] = q := rfl

theorem firstLongest_concat (g : List (String × Report)) (q : String × Report)
    (hg : g ≠ []) :
    firstLongest (g ++ [q]) =
      if descLen q.2 > descLen (firstLongest g).2 then q else firstLongest g := by
  obtain ⟨p, rest, rfl⟩ := List.exists_cons_of_ne_nil hg
  show List.foldl _ p (rest ++ [q]) = _
  rw [List.foldl_append]
  rfl

theorem firstLongest_mem (g : List (String × Report)) (hg : g ≠ []) :
    firstLongest g ∈ g := by
  obtain ⟨p, rest, rfl⟩ := List.exists_cons_of_ne_nil hg
  show List.foldl _ p rest ∈ p :: rest
  have haux : ∀ (l : List (String × Report)) (b : String × Report),
      List.foldl (fun best r => if descLen r.2 > descLen best.2 then r else best) b l
        = b ∨
      List.foldl (fun best r => if descLen r.2 > descLen best.2 then r else best) b l
        ∈ l := by
    intro l
    induction l with
    | nil => intro b; exact Or.inl rfl
    | cons x l ih =>
        intro b
        rw [List.foldl_cons]
        by_cases h : descLen x.2 > descLen b.2
        · rw [if_pos h]
          rcases ih x with h2 | h2
          · refine Or.inr ?_
            rw [h2]
            exact List.mem_cons_self _ _
          · exact Or.inr (List.mem_cons_of_mem _ h2)
        · rw [if_neg h]
          rcases ih b with h2 | h2
          · exact Or.inl h2
          · exact Or.inr (List.mem_cons_of_mem _ h2)
  rcases haux rest p with h | h
  · rw [h]
    exact List.mem_cons_self _ _
  · exact List.mem_cons_of_mem _ h

theorem descLen_le_firstLongest (g : List (String × Report)) :
    ∀ p ∈ g, descLen p.2 ≤ descLen (firstLongest g).2 := by
  induction g using List.reverseRecOn with
  | nil => intro p hp; simp at hp
  | append_singleton g q ih =>
      intro p hp
      by_cases hg : g = []
      · subst hg
        rw [List.nil_append] at hp ⊢
        rw [List.mem_singleton.1 hp, firstLongest_single]
      · rw [firstLongest_concat g q hg]
        rcases List.mem_append.1 hp with h1 | h1
        · by_cases h : descLen q.2 > descLen (firstLongest g).2
          · rw [if_pos h]
            exact Nat.le_of_lt (Nat.lt_of_le_of_lt (ih p h1) h)
          · rw [if_neg h]
            exact ih p h1
        · rw [List.mem_singleton.1 h1]
          by_cases h : descLen q.2 > descLen (firstLongest g).2
          · rw [if_pos h]
          · rw [if_neg h]
            exact Nat.le_of_not_lt h

theorem mem_coordGroup_sub {merged : List (String × Report)} {a b : ℚ}
    {p : String × Report} (h : p ∈ coordGroup merged a b) : p ∈ merged :=
  List.mem_of_mem_filter h

theorem mem_coordGroup_coords {merged : List (String × Report)} {a b : ℚ}
    {p : String × Report} (h : p ∈ coordGroup merged a b) :
    p.2.latitude = some a ∧ p.2.longitude = some b := by
  have := List.of_mem_filter h
  simpa using this

theorem coordGroup_append_one (pre : List (String × Report))
    (q : String × Report) (a b : ℚ) :
    coordGroup (pre ++ [q]) a b =
      coordGroup pre a b ++
        (if q.2.latitude = some a ∧ q.2.longitude = some b then [q] else []) := by
  rw [coordGroup, List.filter_append]
  congr 1
  by_cases h : q.2.latitude = some a ∧ q.2.longitude = some b
  · rw [if_pos h]
    simp [h]
  · rw [if_neg h]
    simp [h]

theorem kget_append {α β : Type} [DecidableEq α] (l1 l2 : List (α × β)) (k : α) :
    kget (l1 ++ l2) k = (kget l1 k).or (kget l2 k) := by
  rw [kget, List.find?_append]
  cases h : l1.find? (fun p => decide (p.1 = k)) with
  | none => simp [kget, h]
  | some v => simp [kget, h]

theorem mergedDedupStep_skip (acc : DedupState) (q : String × Report)
    (h : ¬ (truthyQ q.2.latitude = true ∧ truthyQ q.2.longitude = true)) :
    mergedDedupStep acc q = acc := by
  rw [mergedDedupStep, if_neg h]

theorem mergedDedupStep_new (acc : DedupState) (q : String × Report) (a0 b0 : ℚ)
    (hla : q.2.latitude = some a0) (hlo : q.2.longitude = some b0)
    (ha : a0 ≠ 0) (hb : b0 ≠ 0) (hk : kget acc.1 (a0, b0) = none) :
    mergedDedupStep acc q = (acc.1 ++ [((a0, b0), (q.1, descLen q.2))], acc.2) := by
  rw [mergedDedupStep,
    if_pos ⟨by rw [hla]; simpa [truthyQ] using ha, by rw [hlo]; simpa [truthyQ] using hb⟩]
  simp only [hla, hlo, hk]

theorem mergedDedupStep_replace (acc : DedupState) (q : String × Report)
    (a0 b0 : ℚ) (e : String × ℕ)
    (hla : q.2.latitude = some a0) (hlo : q.2.longitude = some b0)
    (ha : a0 ≠ 0) (hb : b0 ≠ 0) (hk : kget acc.1 (a0, b0) = some e)
    (hgt : descLen q.2 > e.2) :
    mergedDedupStep acc q =
      (kset acc.1 (a0, b0) (q.1, descLen q.2),
       acc.2 ++ [(Path.merged e.1, none)]) := by
  rw [mergedDedupStep,
    if_pos ⟨by rw [hla]; simpa [truthyQ] using ha, by rw [hlo]; simpa [truthyQ] using hb⟩]
  simp only [hla, hlo, hk]
  rw [if_pos hgt]

theorem mergedDedupStep_drop (acc : DedupState) (q : String × Report)
    (a0 b0 : ℚ) (e : String × ℕ)
    (hla : q.2.latitude = some a0) (hlo : q.2.longitude = some b0)
    (ha : a0 ≠ 0) (hb : b0 ≠ 0) (hk : kget acc.1 (a0, b0) = some e)
    (hle : ¬ descLen q.2 > e.2) :
    mergedDedupStep acc q = (acc.1, acc.2 ++ [(Path.merged q.1, none)]) := by
  rw [mergedDedupStep,
    if_pos ⟨by rw [hla]; simpa [truthyQ] using ha, by rw [hlo]; simpa [truthyQ] using hb⟩]
  simp only [hla, hlo, hk]
  rw [if_neg hle]

theorem merged_tomb_ne {i j : String} (h : i ≠ j) :
    (Path.merged i, (none : Option Report)) ≠ (Path.merged j, none) := by
  intro hc
  apply h
  have h1 : Path.merged i = Path.merged j := congrArg Prod.fst hc
  injection h1

/-- A record of `pre` with the id of the first-longest of a group of `pre`
is that first-longest (keys are unique). -/
theorem eq_firstLongest_of_fst_eq {pre : List (String × Report)} {a b : ℚ}
    {p : String × Report} (hndpre : (pre.map (fun x => x.1)).Nodup)
    (hp : p ∈ pre) (hgne : coordGroup pre a b ≠ [])
    (hid : p.1 = (firstLongest (coordGroup pre a b)).1) :
    p = firstLongest (coordGroup pre a b) := by
  have hfl : firstLongest (coordGroup pre a b) ∈ pre :=
    mem_coordGroup_sub (firstLongest_mem _ hgne)
  have hp1 : (p.1, p.2) ∈ pre := hp
  have hp2 : (p.1, (firstLongest (coordGroup pre a b)).2) ∈ pre := by
    rw [hid]
    exact hfl
  have := mem_assoc_unique hndpre hp1 hp2
  have hpe : p = (p.1, p.2) := rfl
  rw [hpe, this, hid]

theorem mergedDedupStep_preserves
    (pre : List (String × Report)) (acc : DedupState) (q : String × Report)
    (hndpre : (pre.map (fun p => p.1)).Nodup)
    (hfresh : q.1 ∉ pre.map (fun p => p.1))
    (h1 : SeenInv pre acc) (h2 : DelIffInv pre acc) (h3 : DelIdsInv pre acc) :
    SeenInv (pre ++ [q]) (mergedDedupStep acc q) ∧
    DelIffInv (pre ++ [q]) (mergedDedupStep acc q) ∧
    DelIdsInv (pre ++ [q]) (mergedDedupStep acc q) := by
  by_cases hg : truthyQ q.2.latitude = true ∧ truthyQ q.2.longitude = true
  case neg =>
    rw [mergedDedupStep_skip acc q hg]
    have hGall : ∀ a b : ℚ, a ≠ 0 → b ≠ 0 →
        coordGroup (pre ++ [q]) a b = coordGroup pre a b := by
      intro a b ha hb
      rw [coordGroup_append_one, if_neg, List.append_nil]
      intro hc
      apply hg
      refine ⟨?_, ?_⟩
      · rw [hc.1]
        simpa [truthyQ] using ha
      · rw [hc.2]
        simpa [truthyQ] using hb
    refine ⟨?_, ?_, ?_⟩
    · intro a b ha hb
      rw [hGall a b ha hb]
      exact h1 a b ha hb
    · intro a b ha hb p hp
      rw [hGall a b ha hb] at hp ⊢
      exact h2 a b ha hb p hp
    · intro i hi
      rw [List.map_append]
      exact List.mem_append_left _ (h3 i hi)
  case pos =>
    cases hla : q.2.latitude with
    | none => rw [hla] at hg; simp [truthyQ] at hg
    | some a0 =>
        cases hlo : q.2.longitude with
        | none => rw [hlo] at hg; simp [truthyQ] at hg
        | some b0 =>
            have ha0 : a0 ≠ 0 := by
              have := hg.1
              rw [hla] at this
              simpa [truthyQ] using this
            have hb0 : b0 ≠ 0 := by
              have := hg.2
              rw [hlo] at this
              simpa [truthyQ] using this
            have hGhit : coordGroup (pre ++ [q]) a0 b0 =
                coordGroup pre a0 b0 ++ [q] := by
              rw [coordGroup_append_one, if_pos ⟨hla, hlo⟩]
            have hGmiss : ∀ a b : ℚ, (a, b) ≠ (a0, b0) →
                coordGroup (pre ++ [q]) a b = coordGroup pre a b := by
              intro a b hne
              rw [coordGroup_append_one, if_neg, List.append_nil]
              intro hc
              apply hne
              have hc1 : some a0 = some a := by rw [← hla, hc.1]
              have hc2 : some b0 = some b := by rw [← hlo, hc.2]
              rw [← Option.some_inj.1 hc1, ← Option.some_inj.1 hc2]
            have hqfresh_pair : ∀ p ∈ pre, p ≠ q := by
              intro p hp hc
              apply hfresh
              rw [← hc]
              exact List.mem_map_of_mem _ hp
            cases hk : kget acc.1 (a0, b0) with
            | none =>
                rw [mergedDedupStep_new acc q a0 b0 hla hlo ha0 hb0 hk]
                have hgnil : coordGroup pre a0 b0 = [] := by
                  by_contra hne
                  have := h1 a0 b0 ha0 hb0
                  rw [hk, if_neg hne] at this
                  simp at this
                refine ⟨?_, ?_, ?_⟩
                · intro a b ha hb
                  rw [kget_append]
                  by_cases hab : (a, b) = ((a0 : ℚ), (b0 : ℚ))
                  · have haa : a = a0 := congrArg Prod.fst hab
                    have hbb : b = b0 := congrArg Prod.snd hab
                    subst haa
                    subst hbb
                    rw [hk]
                    have hsing : kget [((a, b), (q.1, descLen q.2))] (a, b) =
                        some (q.1, descLen q.2) := by
                      rw [kget_cons, if_pos rfl]
                    rw [hsing, hGhit, hgnil, List.nil_append]
                    have : ([q] : List (String × Report)) ≠ [] := by simp
                    rw [if_neg this, firstLongest_single]
                    rfl
                  · rw [hGmiss a b hab]
                    have hsing : kget [((a0, b0), (q.1, descLen q.2))] (a, b) = none := by
                      rw [kget_cons, if_neg (fun hh => hab hh.symm)]
                      rfl
                    rw [hsing, Option.or_none]
                    exact h1 a b ha hb
                · intro a b ha hb p hp
                  by_cases hab : (a, b) = ((a0 : ℚ), (b0 : ℚ))
                  · have haa : a = a0 := congrArg Prod.fst hab
                    have hbb : b = b0 := congrArg Prod.snd hab
                    subst haa
                    subst hbb
                    rw [hGhit, hgnil, List.nil_append] at hp ⊢
                    rw [List.mem_singleton.1 hp, firstLongest_single]
                    refine iff_of_false ?_ (by simp)
                    intro hin
                    exact hfresh (h3 _ hin)
                  · rw [hGmiss a b hab] at hp ⊢
                    exact h2 a b ha hb p hp
                · intro i hi
                  rw [List.map_append]
                  exact List.mem_append_left _ (h3 i hi)
            | some e =>
                have hgne : coordGroup pre a0 b0 ≠ [] := by
                  intro hnil
                  have := h1 a0 b0 ha0 hb0
                  rw [hk, if_pos hnil] at this
                  simp at this
                have he : e = ((firstLongest (coordGroup pre a0 b0)).1,
                    descLen (firstLongest (coordGroup pre a0 b0)).2) := by
                  have := h1 a0 b0 ha0 hb0
                  rw [hk, if_neg hgne] at this
                  exact Option.some_inj.1 this
                have hgne2 : coordGroup pre a0 b0 ++ [q] ≠ [] := by simp
                have hfLpre : firstLongest (coordGroup pre a0 b0) ∈ pre :=
                  mem_coordGroup_sub (firstLongest_mem _ hgne)
                by_cases hgt : descLen q.2 > e.2
                · -- the new record is strictly longer: replace and delete old
                  rw [mergedDedupStep_replace acc q a0 b0 e hla hlo ha0 hb0 hk hgt]
                  have hfL2 : firstLongest (coordGroup (pre ++ [q]) a0 b0) = q := by
                    rw [hGhit, firstLongest_concat _ _ hgne, if_pos]
                    rw [he] at hgt
                    exact hgt
                  refine ⟨?_, ?_, ?_⟩
                  · intro a b ha hb
                    by_cases hab : (a, b) = ((a0 : ℚ), (b0 : ℚ))
                    · have haa : a = a0 := congrArg Prod.fst hab
                      have hbb : b = b0 := congrArg Prod.snd hab
                      subst haa
                      subst hbb
                      rw [kget_kset, if_pos rfl, hGhit, if_neg hgne2]
                      rw [hGhit] at hfL2
                      rw [hfL2]
                    · rw [kget_kset, if_neg hab, hGmiss a b hab]
                      exact h1 a b ha hb
                  · intro a b ha hb p hp
                    by_cases hab : (a, b) = ((a0 : ℚ), (b0 : ℚ))
                    · have haa : a = a0 := congrArg Prod.fst hab
                      have hbb : b = b0 := congrArg Prod.snd hab
                      subst haa
                      subst hbb
                      rw [hGhit] at hp ⊢
                      rw [firstLongest_concat _ _ hgne]
                      rw [he] at hgt
                      rw [if_pos hgt]
                      rcases List.mem_append.1 hp with hpg | hpq
                      · have hppre : p ∈ pre := mem_coordGroup_sub hpg
                        refine iff_of_true ?_ (hqfresh_pair p hppre)
                        by_cases hpfL : p = firstLongest (coordGroup pre a b)
                        · apply List.mem_append_right
                          apply List.mem_singleton.2
                          have : p.1 = e.1 := by rw [hpfL, he]
                          rw [this]
                        · exact List.mem_append_left _
                            ((h2 a b ha0 hb0 p hpg).2 hpfL)
                      · rw [List.mem_singleton.1 hpq]
                        refine iff_of_false ?_ (by simp)
                        intro hin
                        rcases List.mem_append.1 hin with h4 | h4
                        · exact hfresh (h3 _ h4)
                        · have hqe : q.1 = e.1 := by
                            have := List.mem_singleton.1 h4
                            have h5 : Path.merged q.1 = Path.merged e.1 :=
                              congrArg Prod.fst this
                            injection h5
                          apply hfresh
                          rw [hqe, he]
                          exact List.mem_map_of_mem _ hfLpre
                    · rw [hGmiss a b hab] at hp ⊢
                      have hne : p.1 ≠ e.1 := by
                        intro hcon
                        have hppre : p ∈ pre := mem_coordGroup_sub hp
                        have hpeq : p = firstLongest (coordGroup pre a0 b0) := by
                          refine eq_firstLongest_of_fst_eq hndpre hppre hgne ?_
                          rw [hcon, he]
                        have hco := mem_coordGroup_coords hp
                        have hco0 := mem_coordGroup_coords
                          (firstLongest_mem _ hgne)
                        rw [← hpeq] at hco0
                        apply hab
                        have haa : some a = some a0 := by rw [← hco.1, hco0.1]
                        have hbb : some b = some b0 := by rw [← hco.2, hco0.2]
                        rw [Option.some_inj.1 haa, Option.some_inj.1 hbb]
                      have hsplit : (Path.merged p.1, (none : Option Report)) ∈
                          acc.2 ++ [(Path.merged e.1, none)] ↔
                          (Path.merged p.1, (none : Option Report)) ∈ acc.2 := by
                        rw [List.mem_append]
                        constructor
                        · intro hc
                          rcases hc with hc | hc
                          · exact hc
                          · exact absurd (List.mem_singleton.1 hc)
                              (merged_tomb_ne hne)
                        · exact Or.inl
                      rw [hsplit]
                      exact h2 a b ha hb p hp
                  · intro i hi
                    rw [List.map_append]
                    rcases List.mem_append.1 hi with h4 | h4
                    · exact List.mem_append_left _ (h3 i h4)
                    · have hie : i = e.1 := by
                        have := List.mem_singleton.1 h4
                        have h5 : Path.merged i = Path.merged e.1 :=
                          congrArg Prod.fst this
                        injection h5
                      apply List.mem_append_left
                      rw [hie, he]
                      exact List.mem_map_of_mem _ hfLpre
                · -- not longer: delete the new record, keep the old
                  rw [mergedDedupStep_drop acc q a0 b0 e hla hlo ha0 hb0 hk hgt]
                  have hfL2 : firstLongest (coordGroup (pre ++ [q]) a0 b0) =
                      firstLongest (coordGroup pre a0 b0) := by
                    rw [hGhit, firstLongest_concat _ _ hgne, if_neg]
                    rw [he] at hgt
                    exact hgt
                  refine ⟨?_, ?_, ?_⟩
                  · intro a b ha hb
                    by_cases hab : (a, b) = ((a0 : ℚ), (b0 : ℚ))
                    · have haa : a = a0 := congrArg Prod.fst hab
                      have hbb : b = b0 := congrArg Prod.snd hab
                      subst haa
                      subst hbb
                      rw [hk, hGhit, if_neg hgne2]
                      rw [hGhit] at hfL2
                      rw [hfL2, he]
                    · rw [hGmiss a b hab]
                      exact h1 a b ha hb
                  · intro a b ha hb p hp
                    by_cases hab : (a, b) = ((a0 : ℚ), (b0 : ℚ))
                    · have haa : a = a0 := congrArg Prod.fst hab
                      have hbb : b = b0 := congrArg Prod.snd hab
                      subst haa
                      subst hbb
                      rw [hGhit] at hp ⊢
                      rw [hGhit] at hfL2
                      rw [hfL2]
                      rcases List.mem_append.1 hp with hpg | hpq
                      · have hppre : p ∈ pre := mem_coordGroup_sub hpg
                        have hpq : p.1 ≠ q.1 := by
                          intro hc
                          apply hfresh
                          rw [← hc]
                          exact List.mem_map_of_mem _ hppre
                        have hsplit : (Path.merged p.1, (none : Option Report)) ∈
                            acc.2 ++ [(Path.merged q.1, none)] ↔
                            (Path.merged p.1, (none : Option Report)) ∈ acc.2 := by
                          rw [List.mem_append]
                          constructor
                          · intro hc
                            rcases hc with hc | hc
                            · exact hc
                            · exact absurd (List.mem_singleton.1 hc)
                                (merged_tomb_ne hpq)
                          · exact Or.inl
                        rw [hsplit]
                        exact h2 a b ha0 hb0 p hpg
                      · rw [List.mem_singleton.1 hpq]
                        refine iff_of_true
                          (List.mem_append_right _ (List.mem_singleton.2 rfl)) ?_
                        intro hc
                        apply hfresh
                        rw [hc]
                        exact List.mem_map_of_mem _ hfLpre
                    · rw [hGmiss a b hab] at hp ⊢
                      have hne : p.1 ≠ q.1 := by
                        intro hc
                        apply hfresh
                        rw [← hc]
                        exact List.mem_map_of_mem _ (mem_coordGroup_sub hp)
                      have hsplit : (Path.merged p.1, (none : Option Report)) ∈
                          acc.2 ++ [(Path.merged q.1, none)] ↔
                          (Path.merged p.1, (none : Option Report)) ∈ acc.2 := by
                        rw [List.mem_append]
                        constructor
                        · intro hc
                          rcases hc with hc | hc
                          · exact hc
                          · exact absurd (List.mem_singleton.1 hc)
                              (merged_tomb_ne hne)
                        · exact Or.inl
                      rw [hsplit]
                      exact h2 a b ha hb p hp
                  · intro i hi
                    rw [List.map_append]
                    rcases List.mem_append.1 hi with h4 | h4
                    · exact List.mem_append_left _ (h3 i h4)
                    · have hie : i = q.1 := by
                        have := List.mem_singleton.1 h4
                        have h5 : Path.merged i = Path.merged q.1 :=
                          congrArg Prod.fst this
                        injection h5
                      apply List.mem_append_right
                      rw [hie]
                      simp

theorem mergedDedup_fold_invariant :
    ∀ (l pre : List (String × Report)) (acc : DedupState),
      ((pre ++ l).map (fun p => p.1)).Nodup →
      SeenInv pre acc → DelIffInv pre acc → DelIdsInv pre acc →
      SeenInv (pre ++ l) (l.foldl mergedDedupStep acc) ∧
      DelIffInv (pre ++ l) (l.foldl mergedDedupStep acc) ∧
      DelIdsInv (pre ++ l) (l.foldl mergedDedupStep acc) := by
  intro l
  induction l with
  | nil =>
      intro pre acc hnd h1 h2 h3
      rw [List.append_nil]
      exact ⟨h1, h2, h3⟩
  | cons q l ih =>
      intro pre acc hnd h1 h2 h3
      have heq : pre ++ q :: l = (pre ++ [q]) ++ l := by simp
      have hndpre : (pre.map (fun p => p.1)).Nodup := by
        rw [List.map_append, List.nodup_append] at hnd
        exact hnd.1
      have hfresh : q.1 ∉ pre.map (fun p => p.1) := by
        rw [List.map_append, List.nodup_append] at hnd
        intro hc
        exact hnd.2.2 hc (by simp)
      obtain ⟨s1, s2, s3⟩ :=
        mergedDedupStep_preserves pre acc q hndpre hfresh h1 h2 h3
      have hnd2 : (((pre ++ [q]) ++ l).map (fun p => p.1)).Nodup := by
        rw [← heq]
        exact hnd
      have := ih (pre ++ [q]) (mergedDedupStep acc q) hnd2 s1 s2 s3
      rw [List.foldl_cons]
      rw [heq]
      exact this

/-- Claim C7 (corrected): for every coordinate-key group of size at least
two among the Merged records with truthy (present, nonzero) coordinates,
the dedup pass keeps exactly the first-encountered record of maximal
description length and tombstones every other group member.  (As stated
the claim fails for groups at a zero coordinate, which the JS truthiness
guard `!rpt?.latitude` skips entirely; see the counterexample.  The older
`processReports.js` iteration instead keeps the first record encountered
regardless of length, embedded as `mergedDedupSeenFirst`.) -/
theorem C7_mergedDedup_amended (merged : List (String × Report)) (a b : ℚ)
    (ha : a ≠ 0) (hb : b ≠ 0)
    (hnd : (merged.map (fun p => p.1)).Nodup)
    (hsize : 2 ≤ (coordGroup merged a b).length) :
    (firstLongest (coordGroup merged a b) ∈ coordGroup merged a b) ∧
    (∀ p ∈ coordGroup merged a b,
      descLen p.2 ≤ descLen (firstLongest (coordGroup merged a b)).2) ∧
    (∀ p ∈ coordGroup merged a b,
      ((Path.merged p.1, (none : Option Report)) ∈ mergedDedup merged ↔
        p ≠ firstLongest (coordGroup merged a b))) := by
  have hgne : coordGroup merged a b ≠ [] := by
    intro hc
    rw [hc] at hsize
    simp at hsize
  refine ⟨firstLongest_mem _ hgne, descLen_le_firstLongest _, ?_⟩
  have hbase1 : SeenInv [] ([], []) := by
    intro a2 b2 _ _
    have : coordGroup [] a2 b2 = [] := rfl
    rw [this, if_pos rfl]
    rfl
  have hbase2 : DelIffInv [] ([], []) := by
    intro a2 b2 _ _ p hp
    have : coordGroup [] a2 b2 = [] := rfl
    rw [this] at hp
    simp at hp
  have hbase3 : DelIdsInv [] ([], []) := by
    intro i hi
    simp at hi
  have := (mergedDedup_fold_invariant merged [] ([], [])
    (by simpa using hnd) hbase1 hbase2 hbase3).2.1
  rw [List.nil_append] at this
  exact fun p hp => this a b ha hb p hp

/-- Witness for C7: on a two-record group the dedup pass tombstones
exactly the shorter record. -/
theorem C7_mergedDedup_amended_witness :
    (Path.merged "m1", (none : Option Report)) ∈
      mergedDedup [("m1", dupShort), ("m2", dupLong)] ↔
      ("m1", dupShort) ≠
        firstLongest (coordGroup [("m1", dupShort), ("m2", dupLong)] 1 1) :=
  (C7_mergedDedup_amended [("m1", dupShort), ("m2", dupLong)]
    1 1 (by decide) (by decide) (by decide) (by decide)).2.2
    ("m1", dupShort) (by decide)

/-- Counterexample for C7 as stated: two records share the exact
coordinate key `(0, 5)` and have descriptions of different lengths, but
the pass deletes neither (zero latitude is falsy), contradicting
"deletes all of them except the one with the longest description". -/
theorem C7_mergedDedup_counterexample :
    (2 ≤ (coordGroup [("a", zeroLatShort), ("b", zeroLatLong)] 0 5).length) ∧
    ("a", zeroLatShort) ≠
      firstLongest (coordGroup [("a", zeroLatShort), ("b", zeroLatLong)] 0 5) ∧
    mergedDedup [("a", zeroLatShort), ("b", zeroLatLong)] = [] :=
  ⟨by decide, by decide, by decide⟩

theorem le_foldl_max : ∀ (t : List ℚ) (h : ℚ), h ≤ t.foldl max h := by
  intro t
  induction t with
  | nil => intro h; exact le_refl h
  | cons x t ih =>
      intro h
      rw [List.foldl_cons]
      exact le_trans (le_max_left h x) (ih (max h x))

theorem mem_le_foldl_max : ∀ (t : List ℚ) (h x : ℚ), x ∈ t → x ≤ t.foldl max h := by
  intro t
  induction t with
  | nil => intro h x hx; simp at hx
  | cons y t ih =>
      intro h x hx
      rw [List.foldl_cons]
      rcases List.mem_cons.1 hx with h1 | h1
      · rw [h1]
        exact le_trans (le_max_right h y) (le_foldl_max t (max h y))
      · exact ih (max h y) x h1

theorem foldl_max_mem : ∀ (t : List ℚ) (h : ℚ), t.foldl max h = h ∨ t.foldl max h ∈ t := by
  intro t
  induction t with
  | nil => intro h; exact Or.inl rfl
  | cons x t ih =>
      intro h
      rw [List.foldl_cons]
      rcases ih (max h x) with h1 | h1
      · rcases max_choice h x with h2 | h2
        · exact Or.inl (h1.trans h2)
        · refine Or.inr ?_
          rw [h1, h2]
          exact List.mem_cons_self x t
      · exact Or.inr (List.mem_cons_of_mem _ h1)

theorem filterMap_length_of_all_isSome {α β : Type} (f : α → Option β) :
    ∀ l : List α, (∀ x ∈ l, (f x).isSome) → (l.filterMap f).length = l.length := by
  intro l
  induction l with
  | nil => intro _; rfl
  | cons x l ih =>
      intro h
      cases hf : f x with
      | none =>
          have := h x (List.mem_cons_self _ _)
          rw [hf] at this
          simp at this
      | some b =>
          rw [List.filterMap_cons, hf, List.length_cons]
          rw [ih (fun y hy => h y (List.mem_cons_of_mem _ hy))]
          rfl

theorem clusterMaxTs_eq_spec (c : List (String × Report)) (hne : c ≠ [])
    (hts : ∀ p ∈ c, (numTs p.2.timestamp).isSome) :
    clusterMaxTs c = some (maxTsSpec c) := by
  rw [clusterMaxTs]
  have hlen := filterMap_length_of_all_isSome (fun p => numTs p.2.timestamp) c hts
  rw [if_pos hlen]
  cases hl : c.filterMap (fun p => numTs p.2.timestamp) with
  | nil =>
      rw [hl] at hlen
      exact absurd (List.length_eq_zero.1 hlen.symm) hne
  | cons h t =>
      rw [maxTsSpec, hl]

theorem clusterLatest_eq_argmax (c : List (String × Report)) (hne : c ≠ [])
    (hts : ∀ p ∈ c, (numTs p.2.timestamp).isSome) :
    clusterLatest c = (argmaxTs c).2 := by
  rw [clusterLatest, clusterMaxTs_eq_spec c hne hts, argmaxTs]
  cases hf : c.find? (fun p => decide (numTs p.2.timestamp = some (maxTsSpec c))) with
  | none => simp [hf]
  | some p => simp [hf]

/-- Claim C8 (corrected): for a nonempty cluster whose members all carry
numeric timestamps, the synthesized record has: description the
comma-space-joined concatenation of all member descriptions (empty ones
included — the amendment; the claim's filtered bare-comma join is the
older `processReports.js` iteration, embedded as `clusterDescFiltered`);
timestamp the maximum member timestamp; latitude, longitude, icon and
type copied from the first member attaining the maximum timestamp; and
the submitting-user sentinel `"0"`. -/
theorem C8_synthesize_amended (c : List (String × Report)) (hne : c ≠ [])
    (hts : ∀ p ∈ c, (numTs p.2.timestamp).isSome) :
    (synthesize c).description =
      some (String.intercalate ", "
        (c.map (fun p => p.2.description.getD ""))) ∧
    (synthesize c).timestamp = some (JVal.num (maxTsSpec c)) ∧
    (synthesize c).latitude = (argmaxTs c).2.latitude ∧
    (synthesize c).longitude = (argmaxTs c).2.longitude ∧
    (synthesize c).icon = (argmaxTs c).2.icon ∧
    (synthesize c).type = (argmaxTs c).2.type ∧
    (synthesize c).usersubmitting = some "0" ∧
    (argmaxTs c ∈ c ∧ numTs (argmaxTs c).2.timestamp = some (maxTsSpec c)) ∧
    (∀ p ∈ c, ∀ q : ℚ, numTs p.2.timestamp = some q → q ≤ maxTsSpec c) := by
  have hlat := clusterLatest_eq_argmax c hne hts
  have hmax := clusterMaxTs_eq_spec c hne hts
  have hlen := filterMap_length_of_all_isSome (fun p => numTs p.2.timestamp) c hts
  have hattain : argmaxTs c ∈ c ∧
      numTs (argmaxTs c).2.timestamp = some (maxTsSpec c) := by
    have hex : ∃ p ∈ c, numTs p.2.timestamp = some (maxTsSpec c) := by
      have hmem : maxTsSpec c ∈ c.filterMap (fun p => numTs p.2.timestamp) := by
        cases hl : c.filterMap (fun p => numTs p.2.timestamp) with
        | nil =>
            rw [hl] at hlen
            exact absurd (List.length_eq_zero.1 hlen.symm) hne
        | cons h t =>
            rw [maxTsSpec, hl]
            show t.foldl max h ∈ h :: t
            rcases foldl_max_mem t h with h1 | h1
            · rw [h1]
              exact List.mem_cons_self _ _
            · exact List.mem_cons_of_mem _ h1
      obtain ⟨p, hp, hpe⟩ := List.mem_filterMap.1 hmem
      exact ⟨p, hp, hpe⟩
    obtain ⟨p, hp, hpe⟩ := hex
    have hfind : (c.find? (fun p =>
        decide (numTs p.2.timestamp = some (maxTsSpec c)))).isSome := by
      rw [List.find?_isSome]
      exact ⟨p, hp, by simpa using hpe⟩
    rw [argmaxTs]
    cases hf : c.find? (fun p =>
        decide (numTs p.2.timestamp = some (maxTsSpec c))) with
    | none => rw [hf] at hfind; simp at hfind
    | some p2 =>
        constructor
        · exact List.mem_of_find?_eq_some hf
        · have := List.find?_some hf
          simpa using this
  refine ⟨rfl, ?_, ?_, ?_, ?_, ?_, rfl, hattain, ?_⟩
  · show (clusterMaxTs c).map JVal.num = some (JVal.num (maxTsSpec c))
    rw [hmax]
    rfl
  · show (clusterLatest c).latitude = (argmaxTs c).2.latitude
    rw [hlat]
  · show (clusterLatest c).longitude = (argmaxTs c).2.longitude
    rw [hlat]
  · show (clusterLatest c).icon = (argmaxTs c).2.icon
    rw [hlat]
  · show (clusterLatest c).type = (argmaxTs c).2.type
    rw [hlat]
  · intro p hp q hq
    have hmem : q ∈ c.filterMap (fun p => numTs p.2.timestamp) :=
      List.mem_filterMap.2 ⟨p, hp, hq⟩
    cases hl : c.filterMap (fun p => numTs p.2.timestamp) with
    | nil => rw [hl] at hmem; simp at hmem
    | cons h t =>
        rw [maxTsSpec, hl]
        show q ≤ t.foldl max h
        rw [hl] at hmem
        rcases List.mem_cons.1 hmem with h1 | h1
        · rw [h1]
          exact le_foldl_max t h
        · exact mem_le_foldl_max t h q h1

/-- Witness for C8: the amended characterization evaluated on a concrete
two-member cluster. -/
theorem C8_synthesize_amended_witness :
    (synthesize [("a", c8A), ("b", c8B)]).description =
      some (String.intercalate ", "
        ([("a", c8A), ("b", c8B)].map (fun p => p.2.description.getD ""))) ∧
    (synthesize [("a", c8A), ("b", c8B)]).timestamp =
      some (JVal.num (maxTsSpec [("a", c8A), ("b", c8B)])) ∧
    (synthesize [("a", c8A), ("b", c8B)]).latitude =
      (argmaxTs [("a", c8A), ("b", c8B)]).2.latitude ∧
    (synthesize [("a", c8A), ("b", c8B)]).longitude =
      (argmaxTs [("a", c8A), ("b", c8B)]).2.longitude ∧
    (synthesize [("a", c8A), ("b", c8B)]).icon =
      (argmaxTs [("a", c8A), ("b", c8B)]).2.icon ∧
    (synthesize [("a", c8A), ("b", c8B)]).type =
      (argmaxTs [("a", c8A), ("b", c8B)]).2.type ∧
    (synthesize [("a", c8A), ("b", c8B)]).usersubmitting = some "0" ∧
    (argmaxTs [("a", c8A), ("b", c8B)] ∈ [("a", c8A), ("b", c8B)] ∧
      numTs (argmaxTs [("a", c8A), ("b", c8B)]).2.timestamp =
        some (maxTsSpec [("a", c8A), ("b", c8B)])) ∧
    (∀ p ∈ [("a", c8A), ("b", c8B)], ∀ q : ℚ,
      numTs p.2.timestamp = some q → q ≤ maxTsSpec [("a", c8A), ("b", c8B)]) :=
  C8_synthesize_amended [("a", c8A), ("b", c8B)] (by decide) (by decide)

/-- Counterexample for C8 as stated: with an empty member description the
synthesized description is the comma-space join "A, " keeping the empty
entry, not the claimed filtered bare-comma join "A" (which is what the
older iteration `clusterDescFiltered` computes). -/
theorem C8_synthesize_counterexample :
    (synthesize [("a", c8A), ("b", c8B)]).description = some "A, " ∧
    clusterDescFiltered [("a", c8A), ("b", c8B)] = "A" ∧
    (synthesize [("a", c8A), ("b", c8B)]).description ≠
      some (clusterDescFiltered [("a", c8A), ("b", c8B)]) :=
  ⟨by decide, by decide, by decide⟩

theorem mem_restoration_cond {now : ℚ} {live merged : List (String × Report)}
    {e : Write} (h : e ∈ restoration now live merged) :
    ∃ p ∈ merged, ∃ q : ℚ, numTs p.2.timestamp = some q ∧ q ≠ 0 ∧
      (kget live p.1).isNone = true ∧ now - q ≤ MAX_AGE ∧
      e = (Path.live p.1, some p.2) := by
  obtain ⟨p, hp, he⟩ := List.mem_filterMap.1 h
  refine ⟨p, hp, ?_⟩
  cases hn : numTs p.2.timestamp with
  | none => simp [hn] at he
  | some q =>
      simp only [hn] at he
      by_cases hc : q ≠ 0 ∧ (kget live p.1).isNone = true ∧ now - q ≤ MAX_AGE
      · rw [if_pos hc] at he
        exact ⟨q, rfl, hc.1, hc.2.1, hc.2.2, (Option.some_inj.1 he).symm⟩
      · rw [if_neg hc] at he
        simp at he

theorem writesTo_restoration_live_of_isSome {now : ℚ}
    {live merged : List (String × Report)} {id : String}
    (h : (kget live id).isSome) :
    writesTo (restoration now live merged) (Path.live id) = [] := by
  refine writesTo_eq_nil _ _ ?_
  intro e he
  obtain ⟨p, _, q, _, _, hnone, _, he2⟩ := mem_restoration_cond he
  rw [he2]
  intro hcon
  have hpi : p.1 = id := by
    have hx : Path.live p.1 = Path.live id := hcon
    injection hx
  rw [hpi] at hnone
  rw [Option.isNone_iff_eq_none.1 hnone] at h
  simp at h

theorem mergeGo_live_of_not_mem_bounded {excl : Bool}
    {live : List (String × Report)} {keys : ℕ → String} {x : String} :
    ∀ (cs : List (List (String × Report))) (n : ℕ), x ∉ flatIds cs →
      (∀ m, n ≤ m → keys m ≠ x) →
      writesTo (mergeGo excl live keys n cs) (Path.live x) = [] := by
  intro cs
  induction cs with
  | nil => intro n _ _; rfl
  | cons c cs ih =>
      intro n h hk
      rw [mergeGo_cons, writesTo_append]
      have h1 : x ∉ c.map (fun p => p.1) := fun hc =>
        h (List.mem_flatMap.2 ⟨c, List.mem_cons_self _ _, hc⟩)
      have h2 : x ∉ flatIds cs := by
        intro hc
        obtain ⟨c2, hc2, hc3⟩ := List.mem_flatMap.1 hc
        exact h (List.mem_flatMap.2 ⟨c2, List.mem_cons_of_mem _ hc2, hc3⟩)
      rw [writesTo_clusterWrites_live_of_not_mem h1 (hk n (Nat.le_refl n)),
        ih (n + 1) h2 (fun m hm => hk m (Nat.le_of_succ_le hm))]
      rfl

theorem mergeGo_live_at {excl : Bool} {live : List (String × Report)}
    {keys : ℕ → String} (hinj : ∀ i j, keys i = keys j → i = j) :
    ∀ (cs : List (List (String × Report))) (n j : ℕ) (c : List (String × Report)),
      cs.get? j = some c → (∀ m, keys m ∉ flatIds cs) →
      writesTo (mergeGo excl live keys n cs) (Path.live (keys (n + j))) =
        (if dupFlag excl live c then [] else [some (synthesize c)]) := by
  intro cs
  induction cs with
  | nil => intro n j c hc; simp at hc
  | cons c0 cs ih =>
      intro n j c hc hfr
      have hfr0 : keys (n + j) ∉ c0.map (fun p => p.1) := fun hcmem =>
        hfr (n + j) (List.mem_flatMap.2 ⟨c0, List.mem_cons_self _ _, hcmem⟩)
      have hfrs : ∀ m, keys m ∉ flatIds cs := by
        intro m hcmem
        obtain ⟨c2, hc2, hc3⟩ := List.mem_flatMap.1 hcmem
        exact hfr m (List.mem_flatMap.2 ⟨c2, List.mem_cons_of_mem _ hc2, hc3⟩)
      rw [mergeGo_cons, writesTo_append]
      cases j with
      | zero =>
          have hc0 : c0 = c := by simpa using hc
          subst hc0
          have hfr0n : keys n ∉ c0.map (fun p => p.1) := by simpa using hfr0
          rw [Nat.add_zero, writesTo_clusterWrites_live_key hfr0n]
          have htail : writesTo (mergeGo excl live keys (n + 1) cs)
              (Path.live (keys n)) = [] := by
            refine mergeGo_live_of_not_mem_bounded cs (n + 1) (hfrs n) ?_
            intro m hm hcon
            have := hinj _ _ hcon
            omega
          rw [htail, List.append_nil]
      | succ j2 =>
          have hc2 : cs.get? j2 = some c := by simpa using hc
          have hne : keys n ≠ keys (n + (j2 + 1)) := by
            intro hh
            have := hinj _ _ hh
            omega
          rw [writesTo_clusterWrites_live_of_not_mem
            (fun hcmem => hfr (n + (j2 + 1)) (List.mem_flatMap.2
              ⟨c0, List.mem_cons_self _ _, hcmem⟩)) hne, List.nil_append]
          have : n + (j2 + 1) = (n + 1) + j2 := by omega
          rw [this]
          exact ih (n + 1) j2 c hc2 hfrs

/-- Claim C4 (corrected): every record absorbed into a cluster merge is
copied in full into Trash and deleted from Live by the same run.  The
other non-expiry removal — the Live-versus-Merged dedup pass — deletes
the live record without any Trash copy, refuting the claim as stated (see
the counterexample). -/
theorem C4_softdelete_amended (excl : Bool) (dist : Dist) (keys : ℕ → String)
    (now : ℚ) (s : Store)
    (hk : ∀ m, keys m ∉ s.live.map (fun p => p.1))
    (c : List (String × Report)) (hc : c ∈ bigClusters dist s.live)
    (rid : String) (rpt : Report) (hm : (rid, rpt) ∈ c) :
    kget (runOnStore excl dist keys now s).trash rid = some rpt ∧
    kget (runOnStore excl dist keys now s).live rid = none := by
  have hmem_live : (rid, rpt) ∈ s.live := bigClusters_mem_live hc _ hm
  have hrid_live : rid ∈ s.live.map (fun p => p.1) :=
    List.mem_map_of_mem _ hmem_live
  have hkne : ∀ m, keys m ≠ rid := by
    intro m hcon
    exact hk m (hcon ▸ hrid_live)
  constructor
  · rw [runOnStore, kget_applyStore_trash, lastVal_eq_getLastD,
      writesTo_computeUpdates, mergePass,
      mergeGo_trash_of_mem (bigClusters dist s.live) 0
        (bigClusters_flat_nodup dist s.live) c hc hm,
      List.getLastD_concat]
  · rw [runOnStore, kget_applyStore_live, lastVal_eq_getLastD,
      writesTo_computeUpdates, mergePass,
      mergeGo_live_of_mem (bigClusters dist s.live) 0
        (bigClusters_flat_nodup dist s.live) hkne c hc hm,
      List.getLastD_concat]

/-- Witness for C4: the two-record cluster of the concrete store is moved
to Trash and removed from Live. -/
theorem C4_softdelete_amended_witness :
    kget (runOnStore false (fun _ _ _ _ => 0) (fun _ => "k0") 2000
      { live := [("a", c8A), ("b", c8B)] }).trash "a" = some c8A ∧
    kget (runOnStore false (fun _ _ _ _ => 0) (fun _ => "k0") 2000
      { live := [("a", c8A), ("b", c8B)] }).live "a" = none :=
  C4_softdelete_amended false (fun _ _ _ _ => 0) (fun _ => "k0") 2000
    { live := [("a", c8A), ("b", c8B)] }
    (fun _ => by show "k0" ∉ ["a", "b"]; decide)
    [("a", c8A), ("b", c8B)] (by decide) "a" c8A (by decide)

/-- Counterexample for C4 as stated: the Live-versus-Merged dedup pass
deletes the unexpired live record "L" (shorter description than the
merged record at the same coordinates), and the run writes no Trash copy
of it. -/
theorem C4_softdelete_counterexample :
    ((100 : ℚ) - 50 ≤ MAX_AGE) ∧
    kget ({ live := [("L", c4L)], merged := [("M", c4M)] } : Store).live "L" =
      some c4L ∧
    kget (runOnStore false (fun _ _ _ _ => 0) (fun _ => "k") 100
      { live := [("L", c4L)], merged := [("M", c4M)] }).live "L" = none ∧
    kget (runOnStore false (fun _ _ _ _ => 0) (fun _ => "k") 100
      { live := [("L", c4L)], merged := [("M", c4M)] }).trash "L" = none :=
  ⟨by decide, by decide, by decide, by decide⟩

/-- Claim C10 (corrected): the `j`-th merging cluster's synthesized record
is written under the single fresh key `keys j` to Merged always, and to
Live under that same identical id when the duplicate check does not fire;
and each live record is moved to Trash by the merge pass at most once.
(As stated the claim's consequence "each newly synthesized Merged record
has a Live counterpart under the identical id" fails whenever the Live
write is skipped — always, in the `part_000` variant; see the
counterexample for the `processReports.js` variant's skip case.) -/
theorem C10_identity_amended (excl : Bool) (dist : Dist) (keys : ℕ → String)
    (live : List (String × Report))
    (hinj : ∀ i j, keys i = keys j → i = j)
    (hfresh : ∀ m, keys m ∉ live.map (fun p => p.1)) :
    (∀ j c, (bigClusters dist live).get? j = some c →
      writesTo (mergePass excl dist keys live) (Path.merged (keys j)) =
        [some (synthesize c)] ∧
      (dupFlag excl live c = false →
        writesTo (mergePass excl dist keys live) (Path.live (keys j)) =
          [some (synthesize c)])) ∧
    (∀ id, (writesTo (mergePass excl dist keys live) (Path.trash id)).length ≤ 1) := by
  have hfrflat : ∀ m, keys m ∉ flatIds (bigClusters dist live) := by
    intro m hc
    exact hfresh m (bigClusters_ids_sub hc)
  constructor
  · intro j c hc
    constructor
    · have := @mergeGo_merged_at excl live keys hinj (bigClusters dist live) 0 j c hc
      rw [mergePass]
      simpa using this
    · intro hdup
      have := @mergeGo_live_at excl live keys hinj (bigClusters dist live) 0 j c hc hfrflat
      rw [Nat.zero_add, hdup] at this
      rw [mergePass, this]
      simp
  · intro id
    by_cases hid : id ∈ flatIds (bigClusters dist live)
    · obtain ⟨c, hc, hidc⟩ := List.mem_flatMap.1 hid
      obtain ⟨p, hp, hpe⟩ := List.mem_map.1 hidc
      have hm : (id, p.2) ∈ c := by
        have hpp : p = (id, p.2) := by rw [← hpe]
        rw [← hpp]
        exact hp
      rw [mergePass, mergeGo_trash_of_mem (bigClusters dist live) 0
        (bigClusters_flat_nodup dist live) c hc hm]
      simp
    · rw [mergePass, mergeGo_trash_of_not_mem (bigClusters dist live) 0 hid]
      simp

theorem keysW_inj : ∀ i j, keysW i = keysW j → i = j := by
  intro i j h
  have h2 : (keysW i).data = (keysW j).data := by rw [h]
  have h3 : List.replicate (i + 1) (Char.ofNat 107) =
      List.replicate (j + 1) (Char.ofNat 107) := h2
  have hl := congrArg List.length h3
  simp at hl
  exact hl

theorem keysW_notin_ab : ∀ m, keysW m ∉ (["a", "b"] : List String) := by
  intro m hc
  have hd : (keysW m).data = Char.ofNat 107 :: List.replicate m (Char.ofNat 107) := by
    show (List.replicate (m + 1) (Char.ofNat 107)) = _
    rw [List.replicate_succ]
  rcases List.mem_cons.1 hc with h | h
  · have h2 : (keysW m).data = "a".data := by rw [h]
    rw [hd] at h2
    have h3 : Char.ofNat 107 = 'a' := by
      have : "a".data = ['a'] := rfl
      rw [this] at h2
      injection h2
    exact absurd h3 (by decide)
  · have h4 : keysW m = "b" := List.mem_singleton.1 h
    have h2 : (keysW m).data = "b".data := by rw [h4]
    rw [hd] at h2
    have h3 : Char.ofNat 107 = 'b' := by
      have : "b".data = ['b'] := rfl
      rw [this] at h2
      injection h2
    exact absurd h3 (by decide)

/-- Witness for C10: on the concrete two-record snapshot, the synthesized
record is written to Merged under `keysW 0` and any id is trash-moved at
most once. -/
theorem C10_identity_amended_witness :
    writesTo (mergePass false (fun _ _ _ _ => 0) keysW [("a", c8A), ("b", c8B)])
      (Path.merged (keysW 0)) = [some (synthesize [("a", c8A), ("b", c8B)])] ∧
    (writesTo (mergePass false (fun _ _ _ _ => 0) keysW [("a", c8A), ("b", c8B)])
      (Path.trash "a")).length ≤ 1 :=
  ⟨((C10_identity_amended false (fun _ _ _ _ => 0) keysW [("a", c8A), ("b", c8B)]
      keysW_inj (fun m => keysW_notin_ab m)).1 0 [("a", c8A), ("b", c8B)]
      (by decide)).1,
   (C10_identity_amended false (fun _ _ _ _ => 0) keysW [("a", c8A), ("b", c8B)]
      keysW_inj (fun m => keysW_notin_ab m)).2 "a"⟩

/-- Counterexample for C10 as stated: in the cluster-excluding variant a
third live record at the synthesized coordinates makes the run skip the
Live write, so the newly synthesized Merged record has no Live
counterpart under its id. -/
theorem C10_identity_counterexample :
    kget (runOnStore true (fun _ _ _ _ => 0) (fun _ => "k0") 2000
      { live := [("a", c8A), ("b", c8B), ("c", c10out)] }).merged "k0" =
      some (synthesize [("a", c8A), ("b", c8B)]) ∧
    kget (runOnStore true (fun _ _ _ _ => 0) (fun _ => "k0") 2000
      { live := [("a", c8A), ("b", c8B), ("c", c10out)] }).live "k0" = none :=
  ⟨by decide, by decide⟩

/-- Claim C6 (corrected): in the `processReports.js` variant (duplicate
check excluding the cluster), the synthesized record of the `j`-th
merging cluster is written to Merged unconditionally and to Live iff no
live record outside the cluster occupies its exact coordinates.  In the
`part_000` variant the duplicate check does not exclude cluster members,
so the Live write is always skipped (a cluster member itself occupies the
synthesized coordinates); see the counterexample. -/
theorem C6_dupcheck_amended (dist : Dist) (keys : ℕ → String)
    (live : List (String × Report))
    (hinj : ∀ i j, keys i = keys j → i = j)
    (hfresh : ∀ m, keys m ∉ live.map (fun p => p.1))
    (j : ℕ) (c : List (String × Report))
    (hc : (bigClusters dist live).get? j = some c) :
    writesTo (mergePass true dist keys live) (Path.merged (keys j)) =
      [some (synthesize c)] ∧
    writesTo (mergePass true dist keys live) (Path.live (keys j)) =
      (if ∃ p ∈ live, p.1 ∉ c.map (fun x => x.1) ∧
          p.2.latitude = (synthesize c).latitude ∧
          p.2.longitude = (synthesize c).longitude
       then [] else [some (synthesize c)]) := by
  have hfrflat : ∀ m, keys m ∉ flatIds (bigClusters dist live) := by
    intro m hcm
    exact hfresh m (bigClusters_ids_sub hcm)
  constructor
  · have := @mergeGo_merged_at true live keys hinj (bigClusters dist live) 0 j c hc
    rw [mergePass]
    simpa using this
  · have hlive := @mergeGo_live_at true live keys hinj (bigClusters dist live) 0 j c hc hfrflat
    rw [Nat.zero_add] at hlive
    rw [mergePass, hlive]
    have hiff : dupFlag true live c = true ↔
        (∃ p ∈ live, p.1 ∉ c.map (fun x => x.1) ∧
          p.2.latitude = (synthesize c).latitude ∧
          p.2.longitude = (synthesize c).longitude) := by
      show isDuplicateB live (c.map (fun p => p.1)) (synthesize c) = true ↔ _
      rw [isDuplicateB, List.any_eq_true]
      constructor
      · intro ⟨p, hp, hpe⟩
        exact ⟨p, hp, by simpa using hpe⟩
      · intro ⟨p, hp, hpe⟩
        exact ⟨p, hp, by simpa using hpe⟩
    by_cases hdup : dupFlag true live c = true
    · rw [hdup, if_pos (hiff.1 hdup)]
      simp
    · have hf : dupFlag true live c = false := by
        cases hh : dupFlag true live c
        · rfl
        · exact absurd hh hdup
      have hnotex : ¬ (∃ p ∈ live, p.1 ∉ c.map (fun x => x.1) ∧
          p.2.latitude = (synthesize c).latitude ∧
          p.2.longitude = (synthesize c).longitude) := fun hcon =>
        hdup (hiff.2 hcon)
      rw [hf, if_neg hnotex]
      simp

/-- Witness for C6: the concrete three-record snapshot (two clustered
records, one outside duplicate) instantiates the amended duplicate-check
characterization. -/
theorem C6_dupcheck_amended_witness :
    writesTo (mergePass true (fun _ _ _ _ => 0) keysW
      [("a", c8A), ("b", c8B)]) (Path.merged (keysW 0)) =
      [some (synthesize [("a", c8A), ("b", c8B)])] ∧
    writesTo (mergePass true (fun _ _ _ _ => 0) keysW
      [("a", c8A), ("b", c8B)]) (Path.live (keysW 0)) =
      (if ∃ p ∈ ([("a", c8A), ("b", c8B)] : List (String × Report)),
          p.1 ∉ [("a", c8A), ("b", c8B)].map (fun x => x.1) ∧
          p.2.latitude = (synthesize [("a", c8A), ("b", c8B)]).latitude ∧
          p.2.longitude = (synthesize [("a", c8A), ("b", c8B)]).longitude
       then [] else [some (synthesize [("a", c8A), ("b", c8B)])]) :=
  C6_dupcheck_amended (fun _ _ _ _ => 0) keysW [("a", c8A), ("b", c8B)]
    keysW_inj (fun m => keysW_notin_ab m) 0 [("a", c8A), ("b", c8B)] (by decide)

/-- Counterexample for C6 as stated: in the `part_000` variant, with no
live record outside the cluster at the synthesized coordinates, the claim
requires the Live write, but the duplicate check (which does not exclude
the cluster) always fires: the synthesized record reaches Merged only. -/
theorem C6_dupcheck_counterexample :
    (¬ ∃ p ∈ ([("a", c8A), ("b", c8B)] : List (String × Report)),
        p.1 ∉ (["a", "b"] : List String) ∧
        p.2.latitude = (synthesize [("a", c8A), ("b", c8B)]).latitude ∧
        p.2.longitude = (synthesize [("a", c8A), ("b", c8B)]).longitude) ∧
    bigClusters (fun _ _ _ _ => 0) [("a", c8A), ("b", c8B)] =
      [[("a", c8A), ("b", c8B)]] ∧
    kget (runOnStore false (fun _ _ _ _ => 0) (fun _ => "k0") 2000
      { live := [("a", c8A), ("b", c8B)] }).merged "k0" =
      some (synthesize [("a", c8A), ("b", c8B)]) ∧
    kget (runOnStore false (fun _ _ _ _ => 0) (fun _ => "k0") 2000
      { live := [("a", c8A), ("b", c8B)] }).live "k0" = none :=
  ⟨by decide, by decide, by decide, by decide⟩

/-- Claim C1 (corrected): merge correctness restricted to a Live snapshot
holding exactly the two records (the general two-record statement fails
when a third record absorbs one of them into a different cluster — see
the counterexample).  Both records end in Trash, are absent from Live,
exactly one cluster merges, and the single synthesized Merged record
carries the maximum of the two timestamps. -/
theorem C1_merge_amended (excl : Bool) (dist : Dist) (keys : ℕ → String)
    (now : ℚ) (i1 i2 : String) (A B : Report) (s : Store)
    (hlive : s.live = [(i1, A), (i2, B)]) (hmerged : s.merged = [])
    (hne : i1 ≠ i2)
    (hA : candidate A = true) (hB : candidate B = true)
    (htype : B.type = A.type)
    (hdist : withinRadius dist A B = true)
    (hkeys : ∀ m, keys m ≠ i1 ∧ keys m ≠ i2) (qA qB : ℚ)
    (htsA : numTs A.timestamp = some qA) (htsB : numTs B.timestamp = some qB) :
    bigClusters dist s.live = [[(i1, A), (i2, B)]] ∧
    kget (runOnStore excl dist keys now s).trash i1 = some A ∧
    kget (runOnStore excl dist keys now s).trash i2 = some B ∧
    kget (runOnStore excl dist keys now s).live i1 = none ∧
    kget (runOnStore excl dist keys now s).live i2 = none ∧
    kget (runOnStore excl dist keys now s).merged (keys 0) =
      some (synthesize [(i1, A), (i2, B)]) ∧
    (synthesize [(i1, A), (i2, B)]).timestamp =
      some (JVal.num (max qA qB)) := by
  have hne2 : ¬ i2 = i1 := fun h => hne h.symm
  have hbig : bigClusters dist s.live = [[(i1, A), (i2, B)]] := by
    rw [hlive, bigClusters, clusters, clustersGo]
    rw [if_neg (by simp : ¬ (i1, A).1 ∈ ([] : List String))]
    rw [if_pos (show candidate (i1, A).2 = true from hA)]
    have hmem : collectGo dist (i1, A).2 [(i2, B)] ([] ++ [(i1, A).1]) =
        [(i2, B)] := by
      rw [collectGo]
      rw [if_neg (by simpa using hne2)]
      rw [if_neg (by simpa using htype)]
      rw [if_pos (show withinRadius dist (i1, A).2 (i2, B).2 = true from hdist)]
      rfl
    rw [hmem]
    have hrest : clustersGo dist [(i2, B)]
        (([] ++ [(i1, A).1]) ++ [(i2, B)].map (fun m => m.1)) = [] := by
      rw [clustersGo]
      rw [if_pos (by simp)]
      rfl
    show List.filter (fun c => decide (2 ≤ c.length))
      (((i1, A) :: [(i2, B)]) :: clustersGo dist [(i2, B)]
        (([] ++ [(i1, A).1]) ++ [(i2, B)].map (fun m => m.1))) =
      [[(i1, A), (i2, B)]]
    rw [hrest]
    rfl
  have hndc : ((([(i1, A), (i2, B)]).map (fun p => p.1)).Nodup) := by
    simp [hne]
  have hmergeGoEq : ∀ p : Path,
      writesTo (mergePass excl dist keys s.live) p =
        writesTo (clusterWrites excl s.live (keys 0) [(i1, A), (i2, B)]) p := by
    intro p
    rw [mergePass, hbig, mergeGo_cons, mergeGo_nil, List.append_nil]
  refine ⟨hbig, ?_, ?_, ?_, ?_, ?_, ?_⟩
  · rw [runOnStore, kget_applyStore_trash, lastVal_eq_getLastD,
      writesTo_computeUpdates, hmergeGoEq,
      writesTo_clusterWrites_trash_of_mem hndc
        (show (i1, A) ∈ [(i1, A), (i2, B)] from by simp),
      List.getLastD_concat]
  · rw [runOnStore, kget_applyStore_trash, lastVal_eq_getLastD,
      writesTo_computeUpdates, hmergeGoEq,
      writesTo_clusterWrites_trash_of_mem hndc
        (show (i2, B) ∈ [(i1, A), (i2, B)] from by simp),
      List.getLastD_concat]
  · rw [runOnStore, kget_applyStore_live, lastVal_eq_getLastD,
      writesTo_computeUpdates, hmergeGoEq,
      writesTo_clusterWrites_live_of_mem hndc
        (show (i1, A) ∈ [(i1, A), (i2, B)] from by simp) (hkeys 0).1,
      List.getLastD_concat]
  · rw [runOnStore, kget_applyStore_live, lastVal_eq_getLastD,
      writesTo_computeUpdates, hmergeGoEq,
      writesTo_clusterWrites_live_of_mem hndc
        (show (i2, B) ∈ [(i1, A), (i2, B)] from by simp) (hkeys 0).2,
      List.getLastD_concat]
  · rw [runOnStore, kget_applyStore_merged, lastVal_eq_getLastD,
      writesTo_computeUpdates, hmergeGoEq,
      writesTo_clusterWrites_merged_key, List.getLastD_concat]
  · show ((clusterMaxTs [(i1, A), (i2, B)]).map JVal.num) = _
    rw [clusterMaxTs_eq_spec _ (by simp) ?hall]
    case hall =>
      intro p hp
      rcases List.mem_cons.1 hp with h | h
      · rw [h]
        simp [htsA]
      · rw [List.mem_singleton.1 h]
        simp [htsB]
    have hfm : ([(i1, A), (i2, B)]).filterMap (fun p => numTs p.2.timestamp) =
        [qA, qB] := by
      rw [List.filterMap_cons, List.filterMap_cons]
      have e1 : numTs (i1, A).2.timestamp = some qA := htsA
      have e2 : numTs (i2, B).2.timestamp = some qB := htsB
      rw [e1, e2]
      rfl
    rw [maxTsSpec, hfm]
    rfl

/-- Witness for C1: the amended two-record merge on a concrete store. -/
theorem C1_merge_amended_witness :
    bigClusters (fun _ _ _ _ => 0)
      ({ live := [("a", c8A), ("b", c8B)] } : Store).live =
      [[("a", c8A), ("b", c8B)]] ∧
    kget (runOnStore false (fun _ _ _ _ => 0) keysW 2000
      { live := [("a", c8A), ("b", c8B)] }).trash "a" = some c8A ∧
    kget (runOnStore false (fun _ _ _ _ => 0) keysW 2000
      { live := [("a", c8A), ("b", c8B)] }).trash "b" = some c8B ∧
    kget (runOnStore false (fun _ _ _ _ => 0) keysW 2000
      { live := [("a", c8A), ("b", c8B)] }).live "a" = none ∧
    kget (runOnStore false (fun _ _ _ _ => 0) keysW 2000
      { live := [("a", c8A), ("b", c8B)] }).live "b" = none ∧
    kget (runOnStore false (fun _ _ _ _ => 0) keysW 2000
      { live := [("a", c8A), ("b", c8B)] }).merged (keysW 0) =
      some (synthesize [("a", c8A), ("b", c8B)]) ∧
    (synthesize [("a", c8A), ("b", c8B)]).timestamp =
      some (JVal.num (max 50 40)) :=
  C1_merge_amended false (fun _ _ _ _ => 0) keysW 2000 "a" "b" c8A c8B
    { live := [("a", c8A), ("b", c8B)] } rfl rfl (by decide) (by decide)
    (by decide) (by decide) (by decide)
    (fun m => ⟨fun h => keysW_notin_ab m (by rw [h]; simp),
      fun h => keysW_notin_ab m (by rw [h]; simp)⟩)
    50 40 (by decide) (by decide)

/-- Counterexample for C1 as stated: records A and B are complete, of the
same type, and within `MERGE_RADIUS` of each other (both call orders),
yet after the run B is still in Live and has no Trash copy — the earlier
anchor X absorbed A into its own cluster and B's cluster stayed a
singleton. -/
theorem C1_merge_counterexample :
    candidate chA = true ∧ candidate chB = true ∧ chA.type = chB.type ∧
    withinRadius chDist chA chB = true ∧ withinRadius chDist chB chA = true ∧
    kget (runOnStore false chDist keysW 2000
      { live := [("x", chX), ("a", chA), ("b", chB)] }).live "b" = some chB ∧
    kget (runOnStore false chDist keysW 2000
      { live := [("x", chX), ("a", chA), ("b", chB)] }).trash "b" = none :=
  ⟨by decide, by decide, by decide, by decide, by decide, by decide, by decide⟩

/-- Claim C3 (confirmed): a run performs exactly one store mutation — the
single multi-path update at the end of the trace.  Failing at any point
before it (after zero to four operations) leaves the store completely
unchanged, and completing the trace is exactly the atomic application of
the accumulated change-set. -/
theorem C3_atomicity (excl : Bool) (dist : Dist) (keys : ℕ → String)
    (now : ℚ) (s : Store) :
    ((runTrace excl dist keys now s).countP isWrite = 1) ∧
    (∀ k, k ≤ 4 → runUpTo excl dist keys now k s = s) ∧
    (runUpTo excl dist keys now 5 s = runOnStore excl dist keys now s) := by
  refine ⟨rfl, ?_, rfl⟩
  intro k hk
  interval_cases k <;> rfl

/-- Witness for C3: a failed run (three of five operations performed) on a
concrete store has written nothing. -/
theorem C3_atomicity_witness :
    runUpTo false (fun _ _ _ _ => 0) (fun _ => "k") 100 3
      ({ merged := [("m", c4M)] } : Store) = { merged := [("m", c4M)] } :=
  (C3_atomicity false (fun _ _ _ _ => 0) (fun _ => "k") 100
    { merged := [("m", c4M)] }).2.1 3 (by decide)

/-- Claim C5 (corrected): idempotence holds only at fixpoints — if a run's
change-set is empty, an immediately repeated run (same `now`, any fresh
key supply) also produces an empty change-set.  In general a second run
is not empty: see the counterexample, where merged-dedup plus restoration
in run one feeds the Live-versus-Merged dedup of run two. -/
theorem C5_idempotence_amended (excl : Bool) (dist : Dist)
    (keys keys2 : ℕ → String) (now : ℚ) (s : Store)
    (h : computeUpdates excl dist keys now s = []) :
    computeUpdates excl dist keys2 now (runOnStore excl dist keys now s) = [] := by
  rw [runOnStore, h, applyStore_nil]
  rw [computeUpdates] at h ⊢
  obtain ⟨h17, h8⟩ := List.append_eq_nil.1 h
  obtain ⟨h16, h7⟩ := List.append_eq_nil.1 h17
  obtain ⟨h15, h6⟩ := List.append_eq_nil.1 h16
  obtain ⟨h14, h5⟩ := List.append_eq_nil.1 h15
  obtain ⟨h13, h4⟩ := List.append_eq_nil.1 h14
  obtain ⟨h12, h3⟩ := List.append_eq_nil.1 h13
  obtain ⟨h1, h2⟩ := List.append_eq_nil.1 h12
  have hbig : bigClusters dist s.live = [] := by
    by_contra hne
    obtain ⟨c, cs, hcs⟩ := List.exists_cons_of_ne_nil hne
    rw [mergePass, hcs, mergeGo_cons] at h8
    obtain ⟨hcw, _⟩ := List.append_eq_nil.1 h8
    rw [clusterWrites_eq] at hcw
    obtain ⟨hcw1, _⟩ := List.append_eq_nil.1 hcw
    obtain ⟨_, hcw3⟩ := List.append_eq_nil.1 hcw1
    simp at hcw3
  rw [h1, h2, h3, h4, h5, h6, h7]
  rw [mergePass, hbig, mergeGo_nil]
  simp

/-- Witness for C5: the empty store is a fixpoint, so the repeated run is
also empty. -/
theorem C5_idempotence_amended_witness :
    computeUpdates false (fun _ _ _ _ => 0) (fun _ => "q") 0
      (runOnStore false (fun _ _ _ _ => 0) (fun _ => "k") 0 {}) = [] :=
  C5_idempotence_amended false (fun _ _ _ _ => 0) (fun _ => "k") (fun _ => "q")
    0 {} (by decide)

/-- Counterexample for C5 as stated: run one dedups the Merged pair and
restores both records into Live; run two (same `now`) then deletes the
restored shorter record via the Live-versus-Merged pass — its change-set
is not empty. -/
theorem C5_idempotence_counterexample :
    computeUpdates false (fun _ _ _ _ => 0) (fun _ => "k") 2000
      (runOnStore false (fun _ _ _ _ => 0) (fun _ => "k") 2000
        { merged := [("m1", c5m1), ("m2", c5m2)] }) =
      [(Path.live "m1", none)] ∧
    ([(Path.live "m1", (none : Option Report))] : List Write) ≠ [] :=
  ⟨by decide, by decide⟩

end FireTriangle
